import Mathlib

/-!
Shallow embedding of the `gfl-stc` repository core (the STC binary table
codec, schema definitions and the named-table access layer), together with
proofs about the embedded operations.

Conventions:
* machine integers are `Nat` / `Int` with explicit `% 2 ^ w` where overflow
  matters; little-endian byte strings are `List Nat` with every byte `< 256`;
* Rust `String` payloads are modelled as their UTF-8 byte lists;
* fallible code returns `Except Error α`;
* the seekable `Cursor<Vec<u8>>` reader/writer is modelled by an explicit
  buffer + position pair.
-/

namespace Stc

/-! ## Little-endian byte encodings (byteorder crate) -/

/-- `w`-byte little-endian encoding of `n` (already reduced mod `256 ^ w`). -/
def leN : Nat → Nat → List Nat
  | 0, _ => []
  | w + 1, n => n % 256 :: leN w (n / 256)

/-- Little-endian value of a byte list: `Σ bᵢ · 256^i`. -/
def leVal : List Nat → Nat
  | [] => 0
  | b :: bs => b + 256 * leVal bs

theorem leN_length (w n : Nat) : (leN w n).length = w := by
  induction w generalizing n with
  | zero => rfl
  | succ w ih => simp [leN, ih]

theorem leVal_leN (w n : Nat) (h : n < 256 ^ w) : leVal (leN w n) = n := by
  induction w generalizing n with
  | zero => simp at h; simp [leN, leVal, h]
  | succ w ih =>
      have hlt : n / 256 < 256 ^ w := by
        apply Nat.div_lt_of_lt_mul
        rw [pow_succ] at h
        omega
      simp [leN, leVal, ih _ hlt]
      omega

theorem leN_lt (w n : Nat) : ∀ b ∈ leN w n, b < 256 := by
  induction w generalizing n with
  | zero => simp [leN]
  | succ w ih =>
      intro b hb
      simp [leN] at hb
      rcases hb with h | h
      · omega
      · exact ih _ _ h

/-! ## Two's complement for signed machine integers -/

/-- Two's-complement representation of `i` in `w` bits, as a `Nat`. -/
def toNat2c (w : Nat) (i : Int) : Nat := (i % (2 ^ w : Nat)).toNat

/-- Decode a `w`-bit two's-complement `Nat` back to an `Int`. -/
def fromNat2c (w : Nat) (n : Nat) : Int :=
  if n < 2 ^ (w - 1) then (n : Int) else (n : Int) - (2 ^ w : Nat)

theorem toNat2c_lt (w : Nat) (i : Int) : toNat2c w i < 2 ^ w := by
  have hpos : (0 : Int) < (2 ^ w : Nat) := by positivity
  have h := Int.emod_lt_of_pos i hpos
  have h0 := Int.emod_nonneg i (by positivity : ((2 ^ w : Nat) : Int) ≠ 0)
  unfold toNat2c
  omega

theorem fromNat2c_toNat2c (w : Nat) (i : Int) (hw : 0 < w)
    (hlo : -(2 ^ (w - 1) : Nat) ≤ i) (hhi : i < (2 ^ (w - 1) : Nat)) :
    fromNat2c w (toNat2c w i) = i := by
  have hsplit : (2 : Nat) ^ w = 2 ^ (w - 1) * 2 := by
    conv_lhs => rw [show w = w - 1 + 1 by omega]
    rw [pow_succ]
  have hmod : i % ((2 ^ w : Nat) : Int) =
      if 0 ≤ i then i else i + ((2 ^ w : Nat) : Int) := by
    by_cases hpos : 0 ≤ i
    · rw [if_pos hpos]
      apply Int.emod_eq_of_lt hpos
      have : ((2 ^ w : Nat) : Int) = ((2 ^ (w - 1) : Nat) : Int) * 2 := by
        push_cast [hsplit]
        ring
      omega
    · rw [if_neg hpos]
      have h2 : (i + ((2 ^ w : Nat) : Int)) % ((2 ^ w : Nat) : Int) =
          i + ((2 ^ w : Nat) : Int) := by
        apply Int.emod_eq_of_lt
        · have : ((2 ^ w : Nat) : Int) = ((2 ^ (w - 1) : Nat) : Int) * 2 := by
            push_cast [hsplit]
            ring
          omega
        · omega
      have h3 : (i + ((2 ^ w : Nat) : Int) * 1) % ((2 ^ w : Nat) : Int) =
          i % ((2 ^ w : Nat) : Int) :=
        Int.add_mul_emod_self_left i ((2 ^ w : Nat) : Int) 1
      rw [mul_one] at h3
      omega
  unfold toNat2c fromNat2c
  rw [hmod]
  by_cases hpos : 0 ≤ i
  · rw [if_pos hpos]
    split <;> omega
  · rw [if_neg hpos]
    split <;> omega

/-! ## UTF-8 (Rust `String` invariant and `String::from_utf8_lossy`)

`utf8Split l` returns the length (1–4) of the leading well-formed UTF-8
sequence of `l`, or `none` if `l` is empty or starts with an ill-formed
sequence.  This is the only place the UTF-8 byte-level grammar appears. -/

/-- A UTF-8 continuation byte: `0x80 ≤ b ≤ 0xBF`. -/
def isCont (b : Nat) : Bool := 0x80 ≤ b && b ≤ 0xBF

/-- Byte `i` of `rest` exists and is in `[lo, hi]`. -/
def byteInRange (rest : List Nat) (i lo hi : Nat) : Bool :=
  match rest.get? i with
  | some b => lo ≤ b && b ≤ hi
  | none => false

def utf8Split : List Nat → Option Nat
  | [] => none
  | b1 :: rest =>
    if b1 ≤ 0x7F then some 1
    else if 0xC2 ≤ b1 && b1 ≤ 0xDF then
      if byteInRange rest 0 0x80 0xBF then some 2 else none
    else if b1 = 0xE0 then
      if byteInRange rest 0 0xA0 0xBF && byteInRange rest 1 0x80 0xBF then
        some 3
      else none
    else if 0xE1 ≤ b1 && b1 ≤ 0xEC then
      if byteInRange rest 0 0x80 0xBF && byteInRange rest 1 0x80 0xBF then
        some 3
      else none
    else if b1 = 0xED then
      if byteInRange rest 0 0x80 0x9F && byteInRange rest 1 0x80 0xBF then
        some 3
      else none
    else if 0xEE ≤ b1 && b1 ≤ 0xEF then
      if byteInRange rest 0 0x80 0xBF && byteInRange rest 1 0x80 0xBF then
        some 3
      else none
    else if b1 = 0xF0 then
      if byteInRange rest 0 0x90 0xBF && byteInRange rest 1 0x80 0xBF
          && byteInRange rest 2 0x80 0xBF then
        some 4
      else none
    else if 0xF1 ≤ b1 && b1 ≤ 0xF3 then
      if byteInRange rest 0 0x80 0xBF && byteInRange rest 1 0x80 0xBF
          && byteInRange rest 2 0x80 0xBF then
        some 4
      else none
    else if b1 = 0xF4 then
      if byteInRange rest 0 0x80 0x8F && byteInRange rest 1 0x80 0xBF
          && byteInRange rest 2 0x80 0xBF then
        some 4
      else none
    else none

set_option maxHeartbeats 1000000 in
theorem utf8Split_pos {l : List Nat} {n : Nat} (h : utf8Split l = some n) :
    1 ≤ n := by
  cases l with
  | nil => exact absurd h (by simp [utf8Split])
  | cons b1 rest =>
      simp only [utf8Split] at h
      split_ifs at h <;> (injection h with h; omega)

/-- Fuel-indexed UTF-8 validity checker: the byte list is a concatenation of
well-formed sequences.  Fuel `≥ length` is always sufficient. -/
def validUtf8F : Nat → List Nat → Bool
  | _, [] => true
  | 0, _ :: _ => false
  | f + 1, l@(_ :: _) =>
    match utf8Split l with
    | some n => validUtf8F f (l.drop n)
    | none => false

/-- Rust `String` invariant: the bytes are valid UTF-8. -/
def validUtf8 (l : List Nat) : Bool := validUtf8F l.length l

theorem validUtf8F_succ :
    ∀ (f : Nat) (l : List Nat), l.length ≤ f →
      validUtf8F f l = validUtf8F (f + 1) l := by
  intro f
  induction f with
  | zero =>
      intro l hl
      cases l with
      | nil => rfl
      | cons a as => simp at hl
  | succ f ih =>
      intro l hl
      cases l with
      | nil => rfl
      | cons b bs =>
          cases hsp : utf8Split (b :: bs) with
          | none => simp only [validUtf8F, hsp]
          | some n =>
              simp only [validUtf8F, hsp]
              have hn := utf8Split_pos hsp
              apply ih
              simp only [List.length_drop, List.length_cons]
              simp only [List.length_cons] at hl
              omega

theorem validUtf8F_mono :
    ∀ (f f' : Nat) (l : List Nat), l.length ≤ f → l.length ≤ f' →
      validUtf8F f l = validUtf8F f' l := by
  have step : ∀ (k f : Nat) (l : List Nat), l.length ≤ f →
      validUtf8F f l = validUtf8F (f + k) l := by
    intro k
    induction k with
    | zero => intro f l _; rfl
    | succ k ih =>
        intro f l hl
        have hkk : f + (k + 1) = (f + k) + 1 := by omega
        rw [ih f l hl, hkk]
        exact validUtf8F_succ (f + k) l (by omega)
  intro f f' l hf hf'
  rcases Nat.le_total f f' with h | h
  · obtain ⟨k, rfl⟩ := Nat.le.dest h
    exact step k f l hf
  · obtain ⟨k, rfl⟩ := Nat.le.dest h
    exact (step k f' l hf').symm

/-- Number of bytes consumed for one ill-formed sequence by lossy decoding
(maximal subpart, Unicode §3.9 / Rust `Utf8Chunks`): the bytes examined until
the error position, at least one. -/
def invalidLen : List Nat → Nat
  | [] => 1
  | b1 :: rest =>
    if 0xC2 ≤ b1 && b1 ≤ 0xDF then 1
    else if 0xE0 ≤ b1 && b1 ≤ 0xEF then
      match rest with
      | b2 :: _ =>
          if (b1 = 0xE0 && (0xA0 ≤ b2 && b2 ≤ 0xBF))
              || (b1 = 0xED && (0x80 ≤ b2 && b2 ≤ 0x9F))
              || (¬(b1 = 0xE0) && ¬(b1 = 0xED) && isCont b2) then 2
          else 1
      | [] => 1
    else if 0xF0 ≤ b1 && b1 ≤ 0xF4 then
      match rest with
      | b2 :: rest2 =>
          if (b1 = 0xF0 && (0x90 ≤ b2 && b2 ≤ 0xBF))
              || (b1 = 0xF4 && (0x80 ≤ b2 && b2 ≤ 0x8F))
              || (¬(b1 = 0xF0) && ¬(b1 = 0xF4) && isCont b2) then
            match rest2 with
            | b3 :: _ => if isCont b3 then 3 else 2
            | [] => 2
          else 1
      | [] => 1
    else 1

/-- The UTF-8 replacement character U+FFFD, encoded. -/
def replChar : List Nat := [0xEF, 0xBF, 0xBD]

/-- Modelled from Rust's `String::from_utf8_lossy(..).to_string()` at the byte
level: well-formed sequences are copied, each maximal ill-formed subpart is
replaced by U+FFFD.  Fuel `≥ length` is always sufficient. -/
def lossyF : Nat → List Nat → List Nat
  | _, [] => []
  | 0, _ :: _ => []
  | f + 1, l@(_ :: _) =>
    match utf8Split l with
    | some n => l.take n ++ lossyF f (l.drop n)
    | none => replChar ++ lossyF f (l.drop (invalidLen l))

def fromUtf8Lossy (l : List Nat) : List Nat := lossyF l.length l

theorem lossyF_of_valid :
    ∀ (f : Nat) (l : List Nat), l.length ≤ f → validUtf8 l = true →
      lossyF f l = l := by
  intro f
  induction f with
  | zero =>
      intro l hl _
      have : l = [] := by
        cases l with
        | nil => rfl
        | cons a as => simp at hl
      subst this
      rfl
  | succ f ih =>
      intro l hl hv
      cases l with
      | nil => rfl
      | cons b bs =>
          cases hsp : utf8Split (b :: bs) with
          | none =>
              simp only [validUtf8, List.length_cons, validUtf8F, hsp] at hv
              exact Bool.noConfusion hv
          | some n =>
              have hn := utf8Split_pos hsp
              simp only [validUtf8, List.length_cons, validUtf8F, hsp] at hv
              simp only [lossyF, hsp]
              have hdrop : ((b :: bs).drop n).length ≤ f := by
                simp only [List.length_drop, List.length_cons]
                simp only [List.length_cons] at hl
                omega
              have hvd : validUtf8 ((b :: bs).drop n) = true := by
                unfold validUtf8
                rw [validUtf8F_mono (((b :: bs).drop n).length) bs.length _
                  (le_refl _) (by simp only [List.length_drop, List.length_cons]; omega)]
                exact hv
              rw [ih _ hdrop hvd]
              exact List.take_append_drop n (b :: bs)

theorem fromUtf8Lossy_of_valid (l : List Nat) (h : validUtf8 l = true) :
    fromUtf8Lossy l = l :=
  lossyF_of_valid l.length l (le_refl _) h

/-! ## Errors (`src/error.rs` / `stc/src/error.rs`)

I/O errors carry only their kind (the crate's `PartialEq` compares I/O errors
by kind only).  `assertFailed` models the `assert_eq!` panic in
`Table::serialize`, which is not an `Error` variant in the source but is an
observable failure of the function. -/

inductive IoKind where
  | unexpectedEof
  | invalidData
  deriving DecidableEq, Repr

/-- Kinds of `std::num::ParseIntError`, carried by `InvalidTableId`. -/
inductive ParseIntErr where
  | empty
  | invalidDigit
  | posOverflow
  deriving DecidableEq, Repr

inductive Error where
  | ioErr (k : IoKind)
  | invalidTableId (e : ParseIntErr)
  | noTableName
  | noTableColumnNames
  | noTableColumnTypes
  | inconsistentNamesAndTypesLength
  | lastBlockSizeMismatch
  | tooManyRows
  | tooManyColumns
  | invalidRowID
  | inconsistentRowLength
  | stringTooBig
  | bookmarkOutOfBounds
  | rowNotFound
  | columnNotFound
  | valueConversionFailed
  | invalidColumnType
  | mismatchedLength
  | assertFailed
  deriving DecidableEq, Repr

/-! ## Value (`src/value.rs`)

Numeric payloads are `Int` (signed) / `Nat` (unsigned) with the machine range
as a well-formedness predicate (in Rust the range is enforced by the machine
type).  `f32`/`f64` carry their IEEE-754 bit patterns: `byteorder`'s
`read_f32`/`write_f32` are `from_bits`/`to_bits` compositions, which are
lossless on every bit pattern.  `string` carries the UTF-8 bytes of the Rust
`String`. -/

inductive Value where
  | i8 (v : Int)
  | u8 (v : Nat)
  | i16 (v : Int)
  | u16 (v : Nat)
  | i32 (v : Int)
  | u32 (v : Nat)
  | i64 (v : Int)
  | u64 (v : Nat)
  | f32 (bits : Nat)
  | f64 (bits : Nat)
  | string (s : List Nat)
  deriving DecidableEq, Repr

namespace Value

/-- `Value::type_as_u8`. -/
def type_as_u8 : Value → Nat
  | .i8 _ => 1
  | .u8 _ => 2
  | .i16 _ => 3
  | .u16 _ => 4
  | .i32 _ => 5
  | .u32 _ => 6
  | .i64 _ => 7
  | .u64 _ => 8
  | .f32 _ => 9
  | .f64 _ => 10
  | .string _ => 11

/-- `Value::as_i32`: the payload iff the variant is `I32`. -/
def as_i32 : Value → Option Int
  | .i32 v => some v
  | _ => none

/-- Machine-range well-formedness: automatic in Rust from the payload types,
made explicit here.  A string payload is valid UTF-8 with bytes `< 256`
(the Rust `String` invariant). -/
def WF : Value → Bool
  | .i8 v => -128 ≤ v && v < 128
  | .u8 v => v < 256
  | .i16 v => -32768 ≤ v && v < 32768
  | .u16 v => v < 65536
  | .i32 v => -(2 ^ 31 : Nat) ≤ v && v < (2 ^ 31 : Nat)
  | .u32 v => v < 2 ^ 32
  | .i64 v => -(2 ^ 63 : Nat) ≤ v && v < (2 ^ 63 : Nat)
  | .u64 v => v < 2 ^ 64
  | .f32 bits => bits < 2 ^ 32
  | .f64 bits => bits < 2 ^ 64
  | .string s => s.all (· < 256) && validUtf8 s

/-- Byte-size constraint checked by `Value::serialize`: a string's byte length
must fit in a `u16`. -/
def stringFits : Value → Bool
  | .string s => s.length ≤ 65535
  | _ => true

/-- The `is_ascii` flag written before a string: 1 iff every byte is ASCII. -/
def asciiFlag (s : List Nat) : Nat := if s.all (· ≤ 0x7F) then 1 else 0

/-- The bytes `Value::serialize` emits for one value (little-endian payloads;
strings are `flag ++ u16 length ++ bytes`). -/
def bytes : Value → List Nat
  | .i8 v => [toNat2c 8 v]
  | .u8 v => [v % 256]
  | .i16 v => leN 2 (toNat2c 16 v)
  | .u16 v => leN 2 v
  | .i32 v => leN 4 (toNat2c 32 v)
  | .u32 v => leN 4 v
  | .i64 v => leN 8 (toNat2c 64 v)
  | .u64 v => leN 8 v
  | .f32 bits => leN 4 bits
  | .f64 bits => leN 8 bits
  | .string s => asciiFlag s :: leN 2 s.length ++ s

end Value

instance exceptDecEq {ε α : Type} [DecidableEq ε] [DecidableEq α] :
    DecidableEq (Except ε α) := fun x y =>
  match x, y with
  | .error a, .error b =>
      if h : a = b then isTrue (by rw [h])
      else isFalse (fun hcon => h (Except.error.inj hcon))
  | .ok a, .ok b =>
      if h : a = b then isTrue (by rw [h])
      else isFalse (fun hcon => h (Except.ok.inj hcon))
  | .error _, .ok _ => isFalse (fun hcon => Except.noConfusion hcon)
  | .ok _, .error _ => isFalse (fun hcon => Except.noConfusion hcon)

/-! ## Seekable writer (`Cursor<Vec<u8>>` used as `W: WriteBytesExt + Seek`)

Writing at a position inside the buffer overwrites; writing past the end
zero-fills the gap and appends.  Writes to an in-memory cursor cannot fail. -/

/-- Replace bytes of `buf` starting at `p` by `bs`, zero-filling any gap. -/
def overwrite (buf : List Nat) (p : Nat) (bs : List Nat) : List Nat :=
  buf.take p ++ List.replicate (p - buf.length) 0 ++ bs
    ++ buf.drop (p + bs.length)

structure WCur where
  buf : List Nat
  pos : Nat
  deriving DecidableEq, Repr

/-- `write_all` / the `write_*` family: write `bs` at the current position. -/
def wwrite (c : WCur) (bs : List Nat) : WCur :=
  ⟨overwrite c.buf c.pos bs, c.pos + bs.length⟩

/-- `seek(SeekFrom::Start(p))`. -/
def wseek (c : WCur) (p : Nat) : WCur := ⟨c.buf, p⟩

/-! ## Seekable reader (`Cursor` used as `R: Read + Seek`) -/

structure RCur where
  buf : List Nat
  pos : Nat
  deriving DecidableEq, Repr

/-- `read_u8` via `read_exact` semantics: EOF when no byte remains. -/
def rreadByte (c : RCur) : Except Error (Nat × RCur) :=
  match c.buf.get? c.pos with
  | some b => .ok (b, ⟨c.buf, c.pos + 1⟩)
  | none => .error (.ioErr .unexpectedEof)

/-- Read `w` bytes as a little-endian unsigned value
(`read_u16/u32/u64::<LittleEndian>`). -/
def rreadLE : Nat → RCur → Except Error (Nat × RCur)
  | 0, c => .ok (0, c)
  | w + 1, c => do
      let (b, c) ← rreadByte c
      let (v, c) ← rreadLE w c
      .ok (b + 256 * v, c)

/-- `read_exact` into an `n`-byte buffer: fails with `UnexpectedEof` when
fewer than `n` bytes remain. -/
def rreadBytes (c : RCur) (n : Nat) : Except Error (List Nat × RCur) :=
  if n ≤ c.buf.length - c.pos then
    .ok ((c.buf.drop c.pos).take n, ⟨c.buf, c.pos + n⟩)
  else .error (.ioErr .unexpectedEof)

/-- `seek(SeekFrom::Start(p))` on the reader. -/
def rseek (c : RCur) (p : Nat) : RCur := ⟨c.buf, p⟩

namespace Value

/-- `Value::serialize` against a seekable writer.  The string arm writes the
ASCII flag first, then fails with `StringTooBig` if the byte length exceeds
`u16::MAX`, else writes the length and the payload (mirroring the order in
the source; on failure the caller discards the writer). -/
def serializeW (v : Value) (c : WCur) : Except Error WCur :=
  match v with
  | .string s =>
      let c1 := wwrite c [asciiFlag s]
      if s.length ≤ 65535 then
        .ok (wwrite (wwrite c1 (leN 2 s.length)) s)
      else .error .stringTooBig
  | v => .ok (wwrite c v.bytes)

/-- `Value::read(field_type, reader)`: dispatch on the wire tag; tag 11 reads
the advisory ASCII flag, a `u16` length, that many bytes, and decodes with
`String::from_utf8_lossy`.  Unknown tags are `InvalidData` I/O errors. -/
def readW (field_type : Nat) (c : RCur) : Except Error (Value × RCur) :=
  match field_type with
  | 1 => do let (b, c) ← rreadByte c; .ok (.i8 (fromNat2c 8 b), c)
  | 2 => do let (b, c) ← rreadByte c; .ok (.u8 b, c)
  | 3 => do let (n, c) ← rreadLE 2 c; .ok (.i16 (fromNat2c 16 n), c)
  | 4 => do let (n, c) ← rreadLE 2 c; .ok (.u16 n, c)
  | 5 => do let (n, c) ← rreadLE 4 c; .ok (.i32 (fromNat2c 32 n), c)
  | 6 => do let (n, c) ← rreadLE 4 c; .ok (.u32 n, c)
  | 7 => do let (n, c) ← rreadLE 8 c; .ok (.i64 (fromNat2c 64 n), c)
  | 8 => do let (n, c) ← rreadLE 8 c; .ok (.u64 n, c)
  | 9 => do let (n, c) ← rreadLE 4 c; .ok (.f32 n, c)
  | 10 => do let (n, c) ← rreadLE 8 c; .ok (.f64 n, c)
  | 11 => do
      let (_, c) ← rreadByte c       -- step over the `is_ascii` flag
      let (len, c) ← rreadLE 2 c
      let (buffer, c) ← rreadBytes c len
      .ok (.string (fromUtf8Lossy buffer), c)
  | _ => .error (.ioErr .invalidData)

end Value

/-! ## Writer lemmas -/

theorem overwrite_append (buf : List Nat) (p : Nat) (a b : List Nat) :
    overwrite (overwrite buf p a) (p + a.length) b = overwrite buf p (a ++ b) := by
  unfold overwrite
  have hu : (buf.take p ++ List.replicate (p - buf.length) 0 ++ a).length
      = p + a.length := by
    simp [List.length_take]
    omega
  have hA : ((buf.take p ++ List.replicate (p - buf.length) 0 ++ a)
        ++ buf.drop (p + a.length)).take (p + a.length)
      = buf.take p ++ List.replicate (p - buf.length) 0 ++ a := by
    rw [← hu]
    exact List.take_left _ _
  have hB : ((buf.take p ++ List.replicate (p - buf.length) 0 ++ a)
        ++ buf.drop (p + a.length)).drop (p + a.length + b.length)
      = buf.drop (p + (a ++ b).length) := by
    rw [← List.drop_drop b.length (p + a.length)
          ((buf.take p ++ List.replicate (p - buf.length) 0 ++ a)
            ++ buf.drop (p + a.length)),
        List.drop_left' hu, List.drop_drop]
    congr 1
    simp
    omega
  have hlen : ((buf.take p ++ List.replicate (p - buf.length) 0 ++ a)
        ++ buf.drop (p + a.length)).length = max buf.length (p + a.length) := by
    simp [hu, List.length_drop]
    omega
  rw [hA, hB, hlen]
  have hz : p + a.length - max buf.length (p + a.length) = 0 := by omega
  rw [hz]
  simp [List.append_assoc]

theorem wwrite_wwrite (c : WCur) (a b : List Nat) :
    wwrite (wwrite c a) b = wwrite c (a ++ b) := by
  unfold wwrite
  simp only [overwrite_append]
  congr 1
  simp
  omega

/-- Appending write: writing at the end of the buffer extends it. -/
theorem wwrite_append (buf bs : List Nat) :
    wwrite ⟨buf, buf.length⟩ bs = ⟨buf ++ bs, buf.length + bs.length⟩ := by
  unfold wwrite overwrite
  congr 1
  simp

/-- Patching write: writing strictly inside the buffer splices bytes in. -/
theorem wwrite_patch (buf bs : List Nat) (p : Nat)
    (h : p + bs.length ≤ buf.length) :
    wwrite ⟨buf, p⟩ bs = ⟨buf.take p ++ bs ++ buf.drop (p + bs.length), p + bs.length⟩ := by
  unfold wwrite overwrite
  congr 1
  have : p - buf.length = 0 := by omega
  simp [this]

/-! ## Reader lemmas -/

theorem rreadByte_eq {buf : List Nat} {pos : Nat} {b : Nat} {rest : List Nat}
    (h : buf.drop pos = b :: rest) :
    rreadByte ⟨buf, pos⟩ = .ok (b, ⟨buf, pos + 1⟩) := by
  have hg : buf[pos]? = some b := by
    have h0 : (buf.drop pos)[0]? = some b := by rw [h]; simp
    rw [List.getElem?_drop] at h0
    simpa using h0
  unfold rreadByte
  simp [hg]

theorem drop_of_drop_cons {buf : List Nat} {pos : Nat} {b : Nat}
    {rest : List Nat} (h : buf.drop pos = b :: rest) :
    buf.drop (pos + 1) = rest := by
  have : (buf.drop pos).drop 1 = buf.drop (pos + 1) := by
    rw [List.drop_drop]
  rw [← this, h]
  rfl

theorem rreadLE_eq : ∀ (w : Nat) {buf : List Nat} {pos n : Nat}
    {rest : List Nat}, buf.drop pos = leN w n ++ rest → n < 256 ^ w →
    rreadLE w ⟨buf, pos⟩ = .ok (n, ⟨buf, pos + w⟩) := by
  intro w
  induction w with
  | zero =>
      intro buf pos n rest _ hn
      simp at hn
      simp [rreadLE, hn]
  | succ w ih =>
      intro buf pos n rest h hn
      rw [leN] at h
      simp only [List.cons_append] at h
      have h1 := rreadByte_eq h
      have h2 : buf.drop (pos + 1) = leN w (n / 256) ++ rest :=
        drop_of_drop_cons h
      have hdiv : n / 256 < 256 ^ w := by
        apply Nat.div_lt_of_lt_mul
        rw [pow_succ] at hn
        omega
      have h3 := ih h2 hdiv
      rw [rreadLE]
      rw [h1]
      simp only [bind, Except.bind]
      rw [h3]
      simp only [bind, Except.bind]
      congr 2
      · omega
      · congr 1
        omega

theorem rreadBytes_eq {buf : List Nat} {pos : Nat} {s rest : List Nat}
    (h : buf.drop pos = s ++ rest) :
    rreadBytes ⟨buf, pos⟩ s.length = .ok (s, ⟨buf, pos + s.length⟩) := by
  unfold rreadBytes
  dsimp only
  have hlen : (buf.drop pos).length = buf.length - pos := List.length_drop _ _
  rw [h] at hlen
  simp only [List.length_append] at hlen
  rw [if_pos (by omega)]
  congr 2
  rw [h]
  exact List.take_left _ _

theorem drop_of_drop_append {buf : List Nat} {pos : Nat} {s rest : List Nat}
    (h : buf.drop pos = s ++ rest) : buf.drop (pos + s.length) = rest := by
  have h2 := List.drop_drop s.length pos buf
  rw [h, List.drop_left] at h2
  exact h2.symm

/-! ## Value round trip -/

theorem bytes_length_i8 (v : Int) : (Value.bytes (.i8 v)).length = 1 := rfl

theorem readW_bytes {v : Value} (hWF : v.WF = true)
    (hfits : v.stringFits = true) {buf : List Nat} {pos : Nat}
    {rest : List Nat} (h : buf.drop pos = v.bytes ++ rest) :
    Value.readW v.type_as_u8 ⟨buf, pos⟩
      = .ok (v, ⟨buf, pos + v.bytes.length⟩) := by
  cases v with
  | i8 v =>
      simp only [Value.WF, Bool.and_eq_true, decide_eq_true_eq] at hWF
      simp only [Value.bytes, List.cons_append, List.nil_append] at h
      rw [Value.type_as_u8, Value.readW, rreadByte_eq h]
      simp only [bind, Except.bind]
      rw [fromNat2c_toNat2c 8 v (by norm_num) (by push_cast; omega)
        (by push_cast; omega)]
      rfl
  | u8 v =>
      simp only [Value.WF, decide_eq_true_eq] at hWF
      simp only [Value.bytes, List.cons_append, List.nil_append] at h
      rw [Value.type_as_u8, Value.readW, rreadByte_eq h]
      simp only [bind, Except.bind]
      rw [Nat.mod_eq_of_lt hWF]
      rfl
  | i16 v =>
      simp only [Value.WF, Bool.and_eq_true, decide_eq_true_eq] at hWF
      rw [Value.type_as_u8, Value.readW,
        rreadLE_eq 2 h (by have := toNat2c_lt 16 v; norm_num at this ⊢; omega)]
      simp only [bind, Except.bind]
      rw [fromNat2c_toNat2c 16 v (by norm_num) (by push_cast; omega)
        (by push_cast; omega)]
      simp [Value.bytes, leN_length]
  | u16 v =>
      simp only [Value.WF, decide_eq_true_eq] at hWF
      rw [Value.type_as_u8, Value.readW, rreadLE_eq 2 h (by norm_num; omega)]
      simp [bind, Except.bind, Value.bytes, leN_length]
  | i32 v =>
      simp only [Value.WF, Bool.and_eq_true, decide_eq_true_eq] at hWF
      rw [Value.type_as_u8, Value.readW,
        rreadLE_eq 4 h (by have := toNat2c_lt 32 v; norm_num at this ⊢; omega)]
      simp only [bind, Except.bind]
      rw [fromNat2c_toNat2c 32 v (by norm_num) (by push_cast at hWF ⊢; omega)
        (by push_cast at hWF ⊢; omega)]
      simp [Value.bytes, leN_length]
  | u32 v =>
      simp only [Value.WF, decide_eq_true_eq] at hWF
      rw [Value.type_as_u8, Value.readW, rreadLE_eq 4 h (by norm_num; omega)]
      simp [bind, Except.bind, Value.bytes, leN_length]
  | i64 v =>
      simp only [Value.WF, Bool.and_eq_true, decide_eq_true_eq] at hWF
      rw [Value.type_as_u8, Value.readW,
        rreadLE_eq 8 h (by have := toNat2c_lt 64 v; norm_num at this ⊢; omega)]
      simp only [bind, Except.bind]
      rw [fromNat2c_toNat2c 64 v (by norm_num) (by push_cast at hWF ⊢; omega)
        (by push_cast at hWF ⊢; omega)]
      simp [Value.bytes, leN_length]
  | u64 v =>
      simp only [Value.WF, decide_eq_true_eq] at hWF
      rw [Value.type_as_u8, Value.readW, rreadLE_eq 8 h (by norm_num; omega)]
      simp [bind, Except.bind, Value.bytes, leN_length]
  | f32 bits =>
      simp only [Value.WF, decide_eq_true_eq] at hWF
      rw [Value.type_as_u8, Value.readW, rreadLE_eq 4 h (by norm_num; omega)]
      simp [bind, Except.bind, Value.bytes, leN_length]
  | f64 bits =>
      simp only [Value.WF, decide_eq_true_eq] at hWF
      rw [Value.type_as_u8, Value.readW, rreadLE_eq 8 h (by norm_num; omega)]
      simp [bind, Except.bind, Value.bytes, leN_length]
  | string s =>
      simp only [Value.WF, Bool.and_eq_true] at hWF
      simp only [Value.stringFits, decide_eq_true_eq] at hfits
      simp only [Value.bytes, List.cons_append, List.append_assoc] at h
      have h2 : buf.drop (pos + 1) = leN 2 s.length ++ (s ++ rest) :=
        drop_of_drop_cons h
      have h3 : buf.drop (pos + 1 + 2) = s ++ rest := by
        have := drop_of_drop_append h2
        simpa [leN_length] using this
      have h4 : pos + 1 + 2 + s.length
          = pos + (Value.bytes (.string s)).length := by
        simp [Value.bytes, leN_length]
        omega
      simp only [Value.type_as_u8, Value.readW, rreadByte_eq h, bind,
        Except.bind, rreadLE_eq 2 h2 (by norm_num; omega), rreadBytes_eq h3]
      rw [fromUtf8Lossy_of_valid s hWF.2, ← h4]

/-- `Value::serialize` on a value whose string payload fits writes exactly
`Value.bytes`. -/
theorem serializeW_eq (v : Value) (hfits : v.stringFits = true) (c : WCur) :
    v.serializeW c = .ok (wwrite c v.bytes) := by
  cases v with
  | string s =>
      simp only [Value.stringFits, decide_eq_true_eq] at hfits
      simp only [Value.serializeW, if_pos hfits]
      rw [wwrite_wwrite, wwrite_wwrite]
      rfl
  | i8 v => rfl
  | u8 v => rfl
  | i16 v => rfl
  | u16 v => rfl
  | i32 v => rfl
  | u32 v => rfl
  | i64 v => rfl
  | u64 v => rfl
  | f32 v => rfl
  | f64 v => rfl

/-- `Value::serialize` never writes anything other than `Value.bytes` when it
succeeds. -/
theorem serializeW_ok {v : Value} {c c' : WCur} (h : v.serializeW c = .ok c') :
    c' = wwrite c v.bytes := by
  cases v with
  | string s =>
      simp only [Value.serializeW] at h
      split_ifs at h with hf
      · simp only [Except.ok.injEq] at h
        rw [← h, wwrite_wwrite, wwrite_wwrite]
        rfl
  | i8 v => exact (Except.ok.inj h).symm
  | u8 v => exact (Except.ok.inj h).symm
  | i16 v => exact (Except.ok.inj h).symm
  | u16 v => exact (Except.ok.inj h).symm
  | i32 v => exact (Except.ok.inj h).symm
  | u32 v => exact (Except.ok.inj h).symm
  | i64 v => exact (Except.ok.inj h).symm
  | u64 v => exact (Except.ok.inj h).symm
  | f32 v => exact (Except.ok.inj h).symm
  | f64 v => exact (Except.ok.inj h).symm

/-! ## Table (`src/table.rs`) -/

abbrev Row := List Value

structure Table where
  id : Nat          -- u16 in the source
  rows : List Row
  deriving DecidableEq, Repr

namespace Table

/-- `Table::new`. -/
def new (id : Nat) : Table := ⟨id, []⟩

/-- `Table::add_row`: the four guards in source order, then append. -/
def add_row (t : Table) (row : Row) : Except Error Table :=
  if t.rows.length ≥ 65535 then .error .tooManyRows
  else if row.length > 255 then .error .tooManyColumns
  else
    match row.head? with
    | some (.i32 _) =>
        match t.rows.head? with
        | some first =>
            if first.length ≠ row.length then .error .inconsistentRowLength
            else .ok { t with rows := t.rows ++ [row] }
        | none => .ok { t with rows := t.rows ++ [row] }
    | _ => .error .invalidRowID

end Table

/-! ### Serialization (`Table::serialize`) -/

/-- The inner column loop of `Table::serialize`: before writing column 0 of
every 100th row, bookmark `(row id, writer position)`, failing with
`InvalidRowID` when the cell is not `I32` and with `BookmarkOutOfBounds`
when the position exceeds `u32::MAX`. -/
def writeCells : List Value → Nat → Nat → WCur → List (Int × Nat)
    → Except Error (WCur × List (Int × Nat))
  | [], _, _, c, jt => .ok (c, jt)
  | v :: vs, rowI, colI, c, jt => do
      let jt ←
        if rowI % 100 = 0 ∧ colI = 0 then
          match v.as_i32 with
          | some id =>
              if c.pos < 2 ^ 32 then .ok (jt ++ [(id, c.pos)])
              else .error .bookmarkOutOfBounds
          | none => .error .invalidRowID
        else .ok jt
      let c ← v.serializeW c
      writeCells vs rowI (colI + 1) c jt

/-- The outer row loop of `Table::serialize`. -/
def writeRows : List Row → Nat → WCur → List (Int × Nat)
    → Except Error (WCur × List (Int × Nat))
  | [], _, c, jt => .ok (c, jt)
  | row :: rest, rowI, c, jt => do
      let (c, jt) ← writeCells row rowI 0 c jt
      writeRows rest (rowI + 1) c jt

/-- The zero-filled jump-table reservation: each entry is `i32 0 ++ u32 0`. -/
def jumpPlaceholder : Nat → List Nat
  | 0 => []
  | j + 1 => (leN 4 (toNat2c 32 0) ++ leN 4 0) ++ jumpPlaceholder j

/-- The final jump-table write loop: each captured `(id, offset)` pair as
`i32 LE ++ u32 LE`. -/
def writeJump : WCur → List (Int × Nat) → WCur
  | c, [] => c
  | c, (id, off) :: rest =>
      writeJump (wwrite (wwrite c (leN 4 (toNat2c 32 id))) (leN 4 off)) rest

/-- `Table::serialize` into a fresh seekable buffer (`Cursor::new(Vec::new())`
in the tests); returns the final buffer contents.  Written with explicit
matches (the `?` operator of the source is the same early-return plumbing). -/
def Table.serialize (t : Table) : Except Error (List Nat) :=
  let c := wwrite ⟨[], 0⟩ (leN 2 t.id)             -- table id
  let c := wwrite c (leN 2 2)                      -- LBS placeholder (= 2)
  if t.rows.length > 65535 then .error .tooManyRows -- rows_n: usize → u16
  else
  let c := wwrite c (leN 2 t.rows.length)
  match t.rows with
  | [] => .ok c.buf
  | first :: _ =>
    if first.length > 255 then .error .tooManyColumns -- columns_n: usize → u8
    else
    let c := wwrite c [first.length]
    let c := wwrite c (first.map Value.type_as_u8)   -- column types of row 0
    let jump_table_size := 1 + t.rows.length / 100
    let c := wwrite c (jumpPlaceholder jump_table_size)
    match writeRows t.rows 0 c [] with
    | .error e => .error e
    | .ok (c, jump_table) =>
      let lbs := (c.pos - 4) % 65536
      let c := wwrite (wseek c 2) (leN 2 lbs)          -- backpatch the LBS
      -- `assert_eq!(jump_table.len(), jump_table_size)` (panic in source)
      if jump_table.length ≠ jump_table_size then .error .assertFailed
      else
      let c := writeJump (wseek c (7 + first.length)) jump_table
      .ok c.buf

/-! ### Deserialization (`Table::deserialize`) -/

/-- The column-type loop: `columns` iterations of `read_u8`. -/
def readTags : Nat → RCur → Except Error (List Nat × RCur)
  | 0, c => .ok ([], c)
  | n + 1, c => do
      let (t, c) ← rreadByte c
      let (ts, c) ← readTags n c
      .ok (t :: ts, c)

/-- One row: `Value::read` for each column tag in order. -/
def readRow : List Nat → RCur → Except Error (Row × RCur)
  | [], c => .ok ([], c)
  | t :: ts, c => do
      let (v, c) ← Value.readW t c
      let (vs, c) ← readRow ts c
      .ok (v :: vs, c)

/-- The row loop of `Table::deserialize`. -/
def readRows : Nat → List Nat → RCur → Except Error (List Row × RCur)
  | 0, _, c => .ok ([], c)
  | n + 1, tags, c => do
      let (row, c) ← readRow tags c
      let (rows, c) ← readRows n tags c
      .ok (row :: rows, c)

/-- `Table::deserialize` from a seekable byte stream.  (`cur_pos - 4` is `u64`
arithmetic in the source; it cannot underflow on any stream the writer
produces, and we model it with truncating `Nat` subtraction.) -/
def Table.deserialize (buf : List Nat) : Except Error Table :=
  match rreadLE 2 ⟨buf, 0⟩ with                     -- table id
  | .error e => .error e
  | .ok (table_id, c) =>
  match rreadLE 2 c with                            -- last block size
  | .error e => .error e
  | .ok (last_block_size, c) =>
  match rreadLE 2 c with                            -- row count
  | .error e => .error e
  | .ok (rows, c) =>
  if rows = 0 then .ok (Table.new table_id)
  else
  match rreadByte c with                            -- column count
  | .error e => .error e
  | .ok (columns, c) =>
  match readTags columns c with                     -- column type tags
  | .error e => .error e
  | .ok (column_types, c) =>
  match rreadLE 4 c with                  -- first jump entry: id (unused)
  | .error e => .error e
  | .ok (_first_row_id, c) =>
  match rreadLE 4 c with                  -- first jump entry: offset
  | .error e => .error e
  | .ok (first_row_offset, c) =>
  let c := rseek c first_row_offset       -- skip the rest of the jump table
  match readRows rows column_types c with
  | .error e => .error e
  | .ok (rows', c) =>
  if last_block_size ≠ (c.pos - 4) % 65536 then .error .lastBlockSizeMismatch
  else .ok ⟨table_id, rows'⟩

/-! ### Pure byte-level layout of a serialized table -/

/-- The bytes of one row: concatenation of its cells' encodings. -/
def rowBytes (r : Row) : List Nat := (r.map Value.bytes).flatten

/-- The bytes of the row payload. -/
def payloadBytes (rows : List Row) : List Nat := (rows.map rowBytes).flatten

/-- The pair the row loop bookmarks for one row (nothing for rows whose index
is not a multiple of 100, or — degenerately — for an empty row, whose column
loop never runs). -/
def rowCapture (rowI pos : Nat) (r : Row) : List (Int × Nat) :=
  if rowI % 100 = 0 then
    match r.head? with
    | some v => [((v.as_i32).getD 0, pos)]
    | none => []
  else []

/-- All `(row id, absolute offset)` pairs the row loop bookmarks. -/
def capturesF : List Row → Nat → Nat → List (Int × Nat)
  | [], _, _ => []
  | r :: rest, rowI, pos =>
      rowCapture rowI pos r ++ capturesF rest (rowI + 1) (pos + (rowBytes r).length)

/-- The serialized bytes of a jump table. -/
def jtBytes : List (Int × Nat) → List Nat
  | [] => []
  | (id, off) :: rest => (leN 4 (toNat2c 32 id) ++ leN 4 off) ++ jtBytes rest

/-- Number of reserved jump-table entries: `1 + ⌊N/100⌋`. -/
def jSize (n : Nat) : Nat := 1 + n / 100

/-- Column count used by the serializer: the first row's length. -/
def colCount (t : Table) : Nat := (t.rows.headD []).length

/-- Column type tags used by the serializer: the first row's tags. -/
def tagList (t : Table) : List Nat := (t.rows.headD []).map Value.type_as_u8

/-- Buffer contents right after the append phase, before backpatching. -/
def preBytes (t : Table) : List Nat :=
  leN 2 t.id ++ leN 2 2 ++ leN 2 t.rows.length ++ [colCount t]
    ++ tagList t ++ jumpPlaceholder (jSize t.rows.length)

/-- The backpatched last-block-size value. -/
def lbsOf (t : Table) : Nat :=
  ((preBytes t).length + (payloadBytes t.rows).length - 4) % 65536

/-- The bookmarked jump table of a table (first bookmark at the payload
start, which directly follows the reserved jump-table region). -/
def capturesOf (t : Table) : List (Int × Nat) :=
  capturesF t.rows 0 (preBytes t).length

/-- The final serialized bytes of a non-empty table. -/
def finalBytes (t : Table) : List Nat :=
  leN 2 t.id ++ leN 2 (lbsOf t) ++ leN 2 t.rows.length ++ [colCount t]
    ++ tagList t ++ jtBytes (capturesOf t) ++ payloadBytes t.rows


/-! ### Length lemmas and writer-loop characterizations -/

theorem overwrite_length (buf : List Nat) (p : Nat) (bs : List Nat) :
    (overwrite buf p bs).length = max buf.length (p + bs.length) := by
  simp [overwrite, List.length_take, List.length_drop]
  omega

theorem jumpPlaceholder_length (j : Nat) :
    (jumpPlaceholder j).length = 8 * j := by
  induction j with
  | zero => rfl
  | succ j ih =>
      simp [jumpPlaceholder, ih, leN_length]
      omega

theorem jtBytes_length (jt : List (Int × Nat)) :
    (jtBytes jt).length = 8 * jt.length := by
  induction jt with
  | nil => rfl
  | cons pr rest ih =>
      obtain ⟨id, off⟩ := pr
      simp [jtBytes, ih, leN_length]
      omega

theorem rowBytes_nil : rowBytes [] = [] := rfl

theorem rowBytes_cons (v : Value) (vs : List Value) :
    rowBytes (v :: vs) = v.bytes ++ rowBytes vs := by
  simp [rowBytes]

theorem payloadBytes_nil : payloadBytes [] = [] := rfl

theorem payloadBytes_cons (r : Row) (rows : List Row) :
    payloadBytes (r :: rows) = rowBytes r ++ payloadBytes rows := by
  simp [payloadBytes]

theorem wwrite_nil_cursor (bs : List Nat) :
    wwrite ⟨[], 0⟩ bs = ⟨bs, bs.length⟩ := by
  simp [wwrite, overwrite]

/-- The jump-table write loop is one contiguous write. -/
theorem writeJump_eq : ∀ (jt : List (Int × Nat)) (c : WCur),
    c.pos ≤ c.buf.length → writeJump c jt = wwrite c (jtBytes jt) := by
  intro jt
  induction jt with
  | nil =>
      intro c hc
      simp [writeJump, jtBytes, wwrite, overwrite]
      have : c.pos - c.buf.length = 0 := by omega
      rw [this]
      simp [List.take_append_drop]
  | cons pr rest ih =>
      intro c hc
      obtain ⟨id, off⟩ := pr
      show writeJump (wwrite (wwrite c (leN 4 (toNat2c 32 id))) (leN 4 off)) rest
        = wwrite c (jtBytes ((id, off) :: rest))
      rw [wwrite_wwrite, ih _ (by simp [wwrite, overwrite_length])]
      rw [wwrite_wwrite]
      simp [jtBytes, List.append_assoc]

theorem rowCapture_nil (rowI pos : Nat) : rowCapture rowI pos [] = [] := by
  simp [rowCapture]

/-- Column loop at `colI ≥ 1`: no bookmarks, cells appended. -/
theorem writeCells_ok_pos :
    ∀ (vs : List Value) (rowI colI : Nat) (buf : List Nat)
      (jt : List (Int × Nat)) (c' : WCur) (jt' : List (Int × Nat)),
      1 ≤ colI →
      writeCells vs rowI colI ⟨buf, buf.length⟩ jt = .ok (c', jt') →
      c' = ⟨buf ++ rowBytes vs, (buf ++ rowBytes vs).length⟩ ∧ jt' = jt := by
  intro vs
  induction vs with
  | nil =>
      intro rowI colI buf jt c' jt' _ h
      simp only [writeCells, Except.ok.injEq, Prod.mk.injEq] at h
      simp [← h.1, ← h.2, rowBytes_nil]
  | cons v vs ih =>
      intro rowI colI buf jt c' jt' hcol h
      rw [writeCells] at h
      rw [if_neg (by omega)] at h
      simp only [bind, Except.bind] at h
      cases hsv : v.serializeW ⟨buf, buf.length⟩ with
      | error e => rw [hsv] at h; exact absurd h (by simp)
      | ok c2 =>
          rw [hsv] at h
          have hc2 : c2 = ⟨buf ++ v.bytes, (buf ++ v.bytes).length⟩ := by
            rw [serializeW_ok hsv]
            simp [wwrite_append]
          rw [hc2] at h
          have := ih rowI (colI + 1) (buf ++ v.bytes) jt c' jt' (by omega) h
          rw [rowBytes_cons]
          constructor
          · rw [this.1]
            simp [List.append_assoc]
          · exact this.2

/-- Column loop at `colI = 0`: bookmark per the row-index condition, then
append the cells.  Every new bookmark's offset is `< 2 ^ 32`. -/
theorem writeCells_ok_zero :
    ∀ (vs : List Value) (rowI : Nat) (buf : List Nat)
      (jt : List (Int × Nat)) (c' : WCur) (jt' : List (Int × Nat)),
      writeCells vs rowI 0 ⟨buf, buf.length⟩ jt = .ok (c', jt') →
      c' = ⟨buf ++ rowBytes vs, (buf ++ rowBytes vs).length⟩
        ∧ jt' = jt ++ rowCapture rowI buf.length vs
        ∧ ∀ pr ∈ jt', pr ∈ jt ∨ pr.2 < 2 ^ 32 := by
  intro vs rowI buf jt c' jt' h
  cases vs with
  | nil =>
      simp only [writeCells, Except.ok.injEq, Prod.mk.injEq] at h
      refine ⟨by simp [← h.1, rowBytes_nil], by simp [← h.2, rowCapture_nil], ?_⟩
      intro pr hpr
      rw [← h.2] at hpr
      exact Or.inl hpr
  | cons v vs =>
      rw [writeCells] at h
      by_cases h100 : rowI % 100 = 0
      · rw [if_pos (by exact ⟨h100, rfl⟩)] at h
        cases hid : v.as_i32 with
        | none => rw [hid] at h; exact absurd h (by simp [bind, Except.bind])
        | some id =>
            rw [hid] at h
            simp only [bind, Except.bind] at h
            by_cases hpos : (WCur.mk buf buf.length).pos < 2 ^ 32
            · rw [if_pos hpos] at h
              cases hsv : v.serializeW ⟨buf, buf.length⟩ with
              | error e => rw [hsv] at h; exact absurd h (by simp)
              | ok c2 =>
                  rw [hsv] at h
                  have hc2 : c2 = ⟨buf ++ v.bytes, (buf ++ v.bytes).length⟩ := by
                    rw [serializeW_ok hsv]
                    simp [wwrite_append]
                  rw [hc2] at h
                  have := writeCells_ok_pos vs rowI 1 (buf ++ v.bytes)
                    (jt ++ [(id, buf.length)]) c' jt' (by omega) h
                  refine ⟨by rw [this.1, rowBytes_cons]; simp [List.append_assoc], ?_, ?_⟩
                  · rw [this.2, rowCapture, if_pos h100]
                    simp [hid]
                  · intro pr hpr
                    rw [this.2] at hpr
                    simp only [List.mem_append, List.mem_singleton] at hpr
                    rcases hpr with h1 | h1
                    · exact Or.inl h1
                    · right
                      rw [h1]
                      simpa using hpos
            · rw [if_neg hpos] at h
              exact absurd h (by simp)
      · rw [if_neg (by simp [h100])] at h
        simp only [bind, Except.bind] at h
        cases hsv : v.serializeW ⟨buf, buf.length⟩ with
        | error e => rw [hsv] at h; exact absurd h (by simp)
        | ok c2 =>
            rw [hsv] at h
            have hc2 : c2 = ⟨buf ++ v.bytes, (buf ++ v.bytes).length⟩ := by
              rw [serializeW_ok hsv]
              simp [wwrite_append]
            rw [hc2] at h
            have := writeCells_ok_pos vs rowI 1 (buf ++ v.bytes) jt c' jt'
              (by omega) h
            refine ⟨by rw [this.1, rowBytes_cons]; simp [List.append_assoc],
              ?_, ?_⟩
            · rw [this.2, rowCapture, if_neg h100]
              simp
            · intro pr hpr
              rw [this.2] at hpr
              exact Or.inl hpr

/-- Row loop: rows appended in order, bookmarks as `capturesF`. -/
theorem writeRows_ok :
    ∀ (rows : List Row) (rowI : Nat) (buf : List Nat)
      (jt : List (Int × Nat)) (c' : WCur) (jt' : List (Int × Nat)),
      writeRows rows rowI ⟨buf, buf.length⟩ jt = .ok (c', jt') →
      c' = ⟨buf ++ payloadBytes rows, (buf ++ payloadBytes rows).length⟩
        ∧ jt' = jt ++ capturesF rows rowI buf.length
        ∧ ∀ pr ∈ jt', pr ∈ jt ∨ pr.2 < 2 ^ 32 := by
  intro rows
  induction rows with
  | nil =>
      intro rowI buf jt c' jt' h
      simp only [writeRows, Except.ok.injEq, Prod.mk.injEq] at h
      refine ⟨by simp [← h.1, payloadBytes_nil], by simp [← h.2, capturesF], ?_⟩
      intro pr hpr
      rw [← h.2] at hpr
      exact Or.inl hpr
  | cons r rest ih =>
      intro rowI buf jt c' jt' h
      rw [writeRows] at h
      simp only [bind, Except.bind] at h
      cases hw : writeCells r rowI 0 ⟨buf, buf.length⟩ jt with
      | error e => rw [hw] at h; exact absurd h (by simp)
      | ok p =>
          rw [hw] at h
          obtain ⟨c2, jt2⟩ := p
          have h1 := writeCells_ok_zero r rowI buf jt c2 jt2 hw
          rw [h1.1] at h
          have h2 := ih (rowI + 1) (buf ++ rowBytes r) jt2 c' jt' h
          refine ⟨?_, ?_, ?_⟩
          · rw [h2.1, payloadBytes_cons]
            simp [List.append_assoc]
          · rw [h2.2.1, h1.2.1, capturesF]
            simp [List.append_assoc, List.length_append]
          · intro pr hpr
            rcases h2.2.2 pr hpr with hin | hlt
            · rcases h1.2.2 pr hin with hin2 | hlt2
              · exact Or.inl hin2
              · exact Or.inr hlt2
            · exact Or.inr hlt


/-! ### Shape of a successful serialization -/

theorem preBytes_length (t : Table) :
    (preBytes t).length = 7 + colCount t + 8 * jSize t.rows.length := by
  simp [preBytes, leN_length, jumpPlaceholder_length, tagList, colCount]
  omega

/-- Patching a middle segment of equal length splices the new bytes in. -/
theorem wwrite_patch_mid (x y z bs : List Nat) (h : y.length = bs.length)
    (p : Nat) (hp : p = x.length) :
    wwrite ⟨x ++ y ++ z, p⟩ bs = ⟨x ++ bs ++ z, p + bs.length⟩ := by
  subst hp
  rw [wwrite_patch _ _ _ (by simp [List.length_append]; omega)]
  have h1 : (x ++ y ++ z).take x.length = x := by
    rw [List.append_assoc]
    exact List.take_left _ _
  have h2 : (x ++ y ++ z).drop (x.length + bs.length) = z := by
    rw [show x.length + bs.length = (x ++ y).length by simp [h]]
    exact List.drop_left _ _
  rw [h1, h2]

theorem serialize_shape (tid : Nat) (first : Row) (rest : List Row)
    {buf : List Nat}
    (hs : Table.serialize ⟨tid, first :: rest⟩ = .ok buf) :
    (first :: rest).length ≤ 65535 ∧ first.length ≤ 255
      ∧ (capturesOf ⟨tid, first :: rest⟩).length
          = jSize (first :: rest).length
      ∧ (∀ pr ∈ capturesOf ⟨tid, first :: rest⟩, pr.2 < 2 ^ 32)
      ∧ buf = finalBytes ⟨tid, first :: rest⟩ := by
  simp only [Table.serialize] at hs
  by_cases hN : (first :: rest).length > 65535
  · rw [if_pos hN] at hs
    exact absurd hs (by simp)
  rw [if_neg hN] at hs
  by_cases hC : first.length > 255
  · rw [if_pos hC] at hs
    exact absurd hs (by simp)
  rw [if_neg hC] at hs
  rw [wwrite_wwrite, wwrite_wwrite, wwrite_wwrite, wwrite_wwrite,
    wwrite_wwrite, wwrite_nil_cursor] at hs
  have hpre : leN 2 tid ++ (leN 2 2 ++ (leN 2 (first :: rest).length
      ++ ([first.length] ++ (first.map Value.type_as_u8
      ++ jumpPlaceholder (1 + (first :: rest).length / 100)))))
      = preBytes ⟨tid, first :: rest⟩ := by
    simp [preBytes, colCount, tagList, jSize, List.append_assoc]
  rw [hpre] at hs
  cases hw : writeRows (first :: rest) 0
      ⟨preBytes ⟨tid, first :: rest⟩, (preBytes ⟨tid, first :: rest⟩).length⟩
      [] with
  | error e =>
      rw [hw] at hs
      exact absurd hs (by simp)
  | ok p =>
      obtain ⟨c1, jt⟩ := p
      rw [hw] at hs
      have hrok := writeRows_ok (first :: rest) 0
        (preBytes ⟨tid, first :: rest⟩) [] c1 jt hw
      have hjt : jt = capturesOf ⟨tid, first :: rest⟩ := by
        rw [hrok.2.1]
        simp [capturesOf]
      have hbound : ∀ pr ∈ capturesOf ⟨tid, first :: rest⟩, pr.2 < 2 ^ 32 := by
        intro pr hpr
        rcases hrok.2.2 pr (by rw [hjt]; exact hpr) with hmem | hlt
        · simp at hmem
        · exact hlt
      rw [hrok.1] at hs
      simp only [wseek] at hs
      by_cases hJ : jt.length ≠ 1 + (first :: rest).length / 100
      · rw [if_pos hJ] at hs
        exact absurd hs (by simp)
      rw [if_neg hJ] at hs
      push_neg at hJ
      refine ⟨by omega, by omega, by rw [← hjt, hJ]; rfl, hbound, ?_⟩
      · -- compute the final buffer
        have hgroup1 : preBytes ⟨tid, first :: rest⟩
            ++ payloadBytes (first :: rest)
            = leN 2 tid ++ leN 2 2
              ++ (leN 2 (first :: rest).length ++ [first.length]
                ++ first.map Value.type_as_u8
                ++ jumpPlaceholder (1 + (first :: rest).length / 100)
                ++ payloadBytes (first :: rest)) := by
          rw [← hpre]
          simp [List.append_assoc]
        rw [hgroup1] at hs
        rw [wwrite_patch_mid (leN 2 tid) (leN 2 2)
          (leN 2 (first :: rest).length ++ [first.length]
            ++ first.map Value.type_as_u8
            ++ jumpPlaceholder (1 + (first :: rest).length / 100)
            ++ payloadBytes (first :: rest))
          (leN 2 (((leN 2 tid ++ leN 2 2
            ++ (leN 2 (first :: rest).length ++ [first.length]
              ++ first.map Value.type_as_u8
              ++ jumpPlaceholder (1 + (first :: rest).length / 100)
              ++ payloadBytes (first :: rest))).length - 4) % 65536))
          (by simp [leN_length]) 2 (by simp [leN_length])] at hs
        dsimp only at hs
        rw [writeJump_eq jt _ (by
          simp [leN_length, jumpPlaceholder_length, List.length_append]
          omega)] at hs
        have hgroup2 : leN 2 tid
            ++ leN 2 (((leN 2 tid ++ leN 2 2
              ++ (leN 2 (first :: rest).length ++ [first.length]
                ++ first.map Value.type_as_u8
                ++ jumpPlaceholder (1 + (first :: rest).length / 100)
                ++ payloadBytes (first :: rest))).length - 4) % 65536)
            ++ (leN 2 (first :: rest).length ++ [first.length]
              ++ first.map Value.type_as_u8
              ++ jumpPlaceholder (1 + (first :: rest).length / 100)
              ++ payloadBytes (first :: rest))
            = (leN 2 tid
              ++ leN 2 (((leN 2 tid ++ leN 2 2
                ++ (leN 2 (first :: rest).length ++ [first.length]
                  ++ first.map Value.type_as_u8
                  ++ jumpPlaceholder (1 + (first :: rest).length / 100)
                  ++ payloadBytes (first :: rest))).length - 4) % 65536)
              ++ leN 2 (first :: rest).length ++ [first.length]
              ++ first.map Value.type_as_u8)
              ++ jumpPlaceholder (1 + (first :: rest).length / 100)
              ++ payloadBytes (first :: rest) := by
          simp [List.append_assoc]
        rw [hgroup2] at hs
        rw [wwrite_patch_mid _ _ _ (jtBytes jt)
          (by simp [jumpPlaceholder_length, jtBytes_length, hJ, jSize])
          (7 + first.length) (by simp [leN_length]; omega)] at hs
        dsimp only at hs
        have hbuf := (Except.ok.inj hs).symm
        rw [hbuf]
        have hlen1 : ((leN 2 tid ++ leN 2 2
            ++ (leN 2 (first :: rest).length ++ [first.length]
              ++ first.map Value.type_as_u8
              ++ jumpPlaceholder (1 + (first :: rest).length / 100)
              ++ payloadBytes (first :: rest))).length - 4) % 65536
            = lbsOf ⟨tid, first :: rest⟩ := by
          rw [← hgroup1]
          simp [lbsOf, List.length_append]
        rw [hlen1, hjt]
        simp [finalBytes, colCount, tagList, List.append_assoc]


/-! ### Reading back a serialized table -/

theorem readTags_eq : ∀ (ts : List Nat) {buf : List Nat} {pos : Nat}
    {rest : List Nat}, buf.drop pos = ts ++ rest →
    readTags ts.length ⟨buf, pos⟩ = .ok (ts, ⟨buf, pos + ts.length⟩) := by
  intro ts
  induction ts with
  | nil =>
      intro buf pos rest _
      simp [readTags]
  | cons t ts ih =>
      intro buf pos rest h
      rw [List.cons_append] at h
      have h1 := rreadByte_eq h
      have h2 := ih (drop_of_drop_cons h)
      rw [List.length_cons, readTags]
      simp only [bind, Except.bind, h1, h2]
      simp only [Except.ok.injEq, Prod.mk.injEq]
      refine ⟨trivial, ?_⟩
      congr 1
      omega

theorem readRow_eq : ∀ (r : Row) {buf : List Nat} {pos : Nat}
    {rest : List Nat},
    (∀ v ∈ r, v.WF = true ∧ v.stringFits = true) →
    buf.drop pos = rowBytes r ++ rest →
    readRow (r.map Value.type_as_u8) ⟨buf, pos⟩
      = .ok (r, ⟨buf, pos + (rowBytes r).length⟩) := by
  intro r
  induction r with
  | nil =>
      intro buf pos rest _ _
      simp [readRow, rowBytes_nil]
  | cons v vs ih =>
      intro buf pos rest hwf h
      rw [rowBytes_cons] at h
      rw [List.append_assoc] at h
      have h1 := readW_bytes (hwf v (by simp)).1 (hwf v (by simp)).2 h
      have h2g := drop_of_drop_append (s := Value.bytes v) h
      have h2 := ih (fun w hw => hwf w (by simp [hw])) h2g
      rw [List.map_cons, readRow]
      simp only [bind, Except.bind, h1, h2]
      simp only [Except.ok.injEq, Prod.mk.injEq]
      refine ⟨trivial, ?_⟩
      congr 1
      simp only [rowBytes_cons, List.length_append]
      omega

theorem readRows_eq : ∀ (rows : List Row) (tags : List Nat) {buf : List Nat}
    {pos : Nat} {rest : List Nat},
    (∀ r ∈ rows, r.map Value.type_as_u8 = tags
      ∧ ∀ v ∈ r, v.WF = true ∧ v.stringFits = true) →
    buf.drop pos = payloadBytes rows ++ rest →
    readRows rows.length tags ⟨buf, pos⟩
      = .ok (rows, ⟨buf, pos + (payloadBytes rows).length⟩) := by
  intro rows
  induction rows with
  | nil =>
      intro tags buf pos rest _ _
      simp [readRows, payloadBytes_nil]
  | cons r rs ih =>
      intro tags buf pos rest hrows h
      rw [payloadBytes_cons, List.append_assoc] at h
      have htags := (hrows r (by simp)).1
      have h1 := readRow_eq r (hrows r (by simp)).2 h
      rw [htags] at h1
      have h2g := drop_of_drop_append (s := rowBytes r) h
      have h2 := ih tags (fun rr hrr => hrows rr (by simp [hrr])) h2g
      rw [List.length_cons, readRows]
      simp only [bind, Except.bind, h1, h2]
      simp only [Except.ok.injEq, Prod.mk.injEq]
      refine ⟨trivial, ?_⟩
      congr 1
      simp only [payloadBytes_cons, List.length_append]
      omega

/-- The validity invariant of C1 (amended): rows were accepted by `add_row`
(at most 65 535 rows, at most 255 columns, `i32` first cell, equal lengths),
string cells fit in a `u16` length, every payload is in machine range, the id
fits `u16`, and — the amendment — every row shares the first row\'s column
type vector. -/
def Table.valid (t : Table) : Bool :=
  decide (t.id < 65536) &&
  decide (t.rows.length ≤ 65535) &&
  (match t.rows with
   | [] => true
   | first :: _ =>
       decide (first.length ≤ 255) &&
       (match first.head? with
        | some (.i32 _) => true
        | _ => false) &&
       t.rows.all (fun r =>
         (r.all fun v => v.WF && v.stringFits) &&
         decide (r.map Value.type_as_u8 = first.map Value.type_as_u8)))


theorem valid_spec (tid : Nat) (first : Row) (rest : List Row)
    (hv : Table.valid ⟨tid, first :: rest⟩ = true) :
    tid < 65536 ∧ (first :: rest).length ≤ 65535 ∧ first.length ≤ 255
      ∧ (∃ k, first.head? = some (Value.i32 k))
      ∧ (∀ r ∈ first :: rest,
          (∀ v ∈ r, v.WF = true ∧ v.stringFits = true)
            ∧ r.map Value.type_as_u8 = first.map Value.type_as_u8) := by
  simp only [Table.valid, Bool.and_eq_true, decide_eq_true_eq,
    List.all_eq_true] at hv
  obtain ⟨⟨hid, hN⟩, ⟨⟨hC, hmatch⟩, hall⟩⟩ := hv
  refine ⟨hid, hN, hC, ?_, ?_⟩
  · cases hft : first.head? with
    | none =>
        rw [hft] at hmatch
        exact absurd hmatch (by simp)
    | some v =>
        rw [hft] at hmatch
        cases v
        case i32 k => exact ⟨k, rfl⟩
        all_goals exact absurd hmatch (by simp)
  · intro r hr
    have h := hall r hr
    exact ⟨fun v hvv => by
      have := h.1 v hvv
      simp only [Bool.and_eq_true] at this
      exact this, h.2⟩


/-- C1 (amended): for every valid table — rows accepted by `add_row`, string
cells of at most 65 535 bytes, every payload in machine range, and (the
amendment) every row sharing the first row's column-type vector — if
`Table::serialize` succeeds then deserializing the produced buffer returns
the original table: same id, same rows in the same order. -/
theorem C1_serialize_deserialize (t : Table) (buf : List Nat)
    (hv : t.valid = true) (hs : t.serialize = .ok buf) :
    Table.deserialize buf = .ok t := by
  obtain ⟨tid, trows⟩ := t
  cases trows with
  | nil =>
      have hid : tid < 65536 := by
        simp only [Table.valid, Bool.and_eq_true, decide_eq_true_eq] at hv
        tauto
      simp only [Table.serialize, List.length_nil] at hs
      rw [if_neg (by omega)] at hs
      rw [wwrite_wwrite, wwrite_wwrite, wwrite_nil_cursor] at hs
      have hbuf := (Except.ok.inj hs)
      rw [← hbuf]
      have hd0 : (leN 2 tid ++ (leN 2 2 ++ leN 2 0)).drop 0
          = leN 2 tid ++ (leN 2 2 ++ (leN 2 0 ++ [])) := by simp
      have hd2 : (leN 2 tid ++ (leN 2 2 ++ leN 2 0)).drop 2
          = leN 2 2 ++ (leN 2 0 ++ []) := by
        simpa [leN_length] using drop_of_drop_append hd0
      have hd4 : (leN 2 tid ++ (leN 2 2 ++ leN 2 0)).drop 4
          = leN 2 0 ++ [] := by
        simpa [leN_length] using drop_of_drop_append hd2
      have e1 : rreadLE 2 ⟨leN 2 tid ++ (leN 2 2 ++ leN 2 0), 0⟩
          = .ok (tid, ⟨leN 2 tid ++ (leN 2 2 ++ leN 2 0), 2⟩) := by
        have := rreadLE_eq 2 hd0 (by norm_num; omega)
        simpa using this
      have e2 : rreadLE 2 ⟨leN 2 tid ++ (leN 2 2 ++ leN 2 0), 2⟩
          = .ok (2, ⟨leN 2 tid ++ (leN 2 2 ++ leN 2 0), 4⟩) := by
        have := rreadLE_eq 2 hd2 (by norm_num)
        simpa using this
      have e3 : rreadLE 2 ⟨leN 2 tid ++ (leN 2 2 ++ leN 2 0), 4⟩
          = .ok (0, ⟨leN 2 tid ++ (leN 2 2 ++ leN 2 0), 6⟩) := by
        have := rreadLE_eq 2 hd4 (by norm_num)
        simpa using this
      simp only [Table.deserialize, e1, e2, e3]
      simp [Table.new]
  | cons first rest =>
      obtain ⟨hN, hC, hJlen, hbound, hbuf⟩ :=
        serialize_shape tid first rest hs
      subst hbuf
      obtain ⟨hid, hN65, hC255, ⟨k, hh⟩, hall⟩ := valid_spec tid first rest hv
      have hcap : capturesOf ⟨tid, first :: rest⟩
          = (k, (preBytes ⟨tid, first :: rest⟩).length)
            :: capturesF rest 1 ((preBytes ⟨tid, first :: rest⟩).length
                + (rowBytes first).length) := by
        simp [capturesOf, capturesF, rowCapture, hh, Value.as_i32]
      have hd0 : (finalBytes ⟨tid, first :: rest⟩).drop 0
          = leN 2 tid ++ (leN 2 (lbsOf ⟨tid, first :: rest⟩)
            ++ (leN 2 (first :: rest).length
              ++ (first.length :: (first.map Value.type_as_u8
                ++ (jtBytes (capturesOf ⟨tid, first :: rest⟩)
                  ++ payloadBytes (first :: rest)))))) := by
        simp [finalBytes, colCount, tagList, List.append_assoc]
      have hd2 := drop_of_drop_append hd0
      rw [leN_length] at hd2
      norm_num at hd2
      have hd4 := drop_of_drop_append hd2
      rw [leN_length] at hd4
      norm_num at hd4
      have hd6 := drop_of_drop_append hd4
      rw [leN_length] at hd6
      norm_num at hd6
      have hd7 := drop_of_drop_cons hd6
      norm_num at hd7
      have hd7C := drop_of_drop_append hd7
      rw [List.length_map] at hd7C
      have hd7Cb : (finalBytes ⟨tid, first :: rest⟩).drop (7 + first.length)
          = leN 4 (toNat2c 32 k)
            ++ (leN 4 (preBytes ⟨tid, first :: rest⟩).length
              ++ (jtBytes (capturesF rest 1
                  ((preBytes ⟨tid, first :: rest⟩).length
                    + (rowBytes first).length))
                ++ payloadBytes (first :: rest))) := by
        rw [hcap] at hd7C
        simpa [jtBytes, List.append_assoc] using hd7C
      have hdJ := drop_of_drop_append hd7Cb
      rw [leN_length] at hdJ
      have hprefix : (leN 2 tid ++ leN 2 (lbsOf ⟨tid, first :: rest⟩)
          ++ leN 2 (first :: rest).length ++ [first.length]
          ++ first.map Value.type_as_u8
          ++ jtBytes (capturesOf ⟨tid, first :: rest⟩)).length
          = (preBytes ⟨tid, first :: rest⟩).length := by
        simp [List.length_append, leN_length, jtBytes_length, hJlen,
          preBytes_length, colCount, jSize, List.length_map]
        omega
      have hdP : (finalBytes ⟨tid, first :: rest⟩).drop
          (preBytes ⟨tid, first :: rest⟩).length
          = payloadBytes (first :: rest) := by
        rw [← hprefix]
        simp only [finalBytes, colCount, tagList]
        exact List.drop_left _ _
      have e1 : rreadLE 2 ⟨finalBytes ⟨tid, first :: rest⟩, 0⟩
          = .ok (tid, ⟨finalBytes ⟨tid, first :: rest⟩, 2⟩) := by
        have := rreadLE_eq 2 hd0 (by norm_num; omega)
        simpa using this
      have e2 : rreadLE 2 ⟨finalBytes ⟨tid, first :: rest⟩, 2⟩
          = .ok (lbsOf ⟨tid, first :: rest⟩,
              ⟨finalBytes ⟨tid, first :: rest⟩, 4⟩) := by
        have hlt : lbsOf ⟨tid, first :: rest⟩ < 65536 := by
          unfold lbsOf
          exact Nat.mod_lt _ (by norm_num)
        have := rreadLE_eq 2 hd2 (by norm_num; omega)
        simpa using this
      have e3 : rreadLE 2 ⟨finalBytes ⟨tid, first :: rest⟩, 4⟩
          = .ok ((first :: rest).length,
              ⟨finalBytes ⟨tid, first :: rest⟩, 6⟩) := by
        have := rreadLE_eq 2 hd4 (by norm_num at hN65 ⊢; omega)
        simpa using this
      have e4 : rreadByte ⟨finalBytes ⟨tid, first :: rest⟩, 6⟩
          = .ok (first.length, ⟨finalBytes ⟨tid, first :: rest⟩, 7⟩) := by
        have := rreadByte_eq hd6
        simpa using this
      have e5 : readTags first.length ⟨finalBytes ⟨tid, first :: rest⟩, 7⟩
          = .ok (first.map Value.type_as_u8,
              ⟨finalBytes ⟨tid, first :: rest⟩, 7 + first.length⟩) := by
        have := readTags_eq (first.map Value.type_as_u8) hd7
        simpa [List.length_map] using this
      have e6 : rreadLE 4 ⟨finalBytes ⟨tid, first :: rest⟩, 7 + first.length⟩
          = .ok (toNat2c 32 k,
              ⟨finalBytes ⟨tid, first :: rest⟩, 7 + first.length + 4⟩) := by
        have := rreadLE_eq 4 hd7Cb
          (by have := toNat2c_lt 32 k; norm_num at this ⊢; omega)
        simpa using this
      have e7 : rreadLE 4
          ⟨finalBytes ⟨tid, first :: rest⟩, 7 + first.length + 4⟩
          = .ok ((preBytes ⟨tid, first :: rest⟩).length,
              ⟨finalBytes ⟨tid, first :: rest⟩, 7 + first.length + 4 + 4⟩) := by
        have hPlt : (preBytes ⟨tid, first :: rest⟩).length < 2 ^ 32 := by
          have := hbound (k, (preBytes ⟨tid, first :: rest⟩).length)
            (by rw [hcap]; simp)
          simpa using this
        have := rreadLE_eq 4 hdJ (by norm_num at hPlt ⊢; omega)
        simpa using this
      have e8 : readRows (first :: rest).length (first.map Value.type_as_u8)
          ⟨finalBytes ⟨tid, first :: rest⟩,
            (preBytes ⟨tid, first :: rest⟩).length⟩
          = .ok (first :: rest,
              ⟨finalBytes ⟨tid, first :: rest⟩,
                (preBytes ⟨tid, first :: rest⟩).length
                  + (payloadBytes (first :: rest)).length⟩) := by
        have hall' : ∀ r ∈ first :: rest,
            r.map Value.type_as_u8 = first.map Value.type_as_u8
              ∧ ∀ v ∈ r, v.WF = true ∧ v.stringFits = true :=
          fun r hr => ⟨(hall r hr).2, (hall r hr).1⟩
        have hdP' : (finalBytes ⟨tid, first :: rest⟩).drop
            (preBytes ⟨tid, first :: rest⟩).length
            = payloadBytes (first :: rest) ++ [] := by simpa using hdP
        exact readRows_eq (first :: rest) (first.map Value.type_as_u8)
          hall' hdP'
      simp only [Table.deserialize, e1, e2, e3, e4, e5, e6, e7, rseek, e8]
      rw [if_neg (by simp), if_neg (by simp [lbsOf])]


/-! ## Claim theorems: C5 (value round trip) and C3 (add_row guards) -/

/-- C5: for every value whose string payload (if any) is at most 65 535
bytes, `Value::serialize` succeeds and writes `Value.bytes`, and `Value::read`
applied to the value's own type tag over those bytes returns a value equal to
the original; strings are preserved exactly because the writer emits the
`String`'s (valid-UTF-8) bytes and lossy decoding of valid UTF-8 is the
identity (`fromUtf8Lossy_of_valid`). -/
theorem C5_value_roundtrip (v : Value) (hWF : v.WF = true)
    (hfits : v.stringFits = true) :
    v.serializeW ⟨[], 0⟩ = .ok ⟨v.bytes, v.bytes.length⟩
      ∧ Value.readW v.type_as_u8 ⟨v.bytes, 0⟩
          = .ok (v, ⟨v.bytes, v.bytes.length⟩) := by
  constructor
  · rw [serializeW_eq v hfits, wwrite_nil_cursor]
  · have h : (v.bytes).drop 0 = v.bytes ++ [] := by simp
    have := readW_bytes hWF hfits h
    simpa using this

theorem C5_witness :
    Value.WF (.string [97, 195, 169]) = true
      ∧ Value.stringFits (.string [97, 195, 169]) = true
      ∧ (Value.serializeW (.string [97, 195, 169]) ⟨[], 0⟩
            = .ok ⟨(Value.string [97, 195, 169]).bytes,
                (Value.string [97, 195, 169]).bytes.length⟩
          ∧ Value.readW (Value.string [97, 195, 169]).type_as_u8
              ⟨(Value.string [97, 195, 169]).bytes, 0⟩
            = .ok (Value.string [97, 195, 169],
                ⟨(Value.string [97, 195, 169]).bytes,
                  (Value.string [97, 195, 169]).bytes.length⟩)) :=
  ⟨by decide, by decide,
    C5_value_roundtrip (.string [97, 195, 169]) (by decide) (by decide)⟩

/-- C3: `add_row` checks its four guards in source order — `TooManyRows` when
the table already holds 65 535 rows, else `TooManyColumns` when the row has
more than 255 cells, else `InvalidRowID` when the first cell is absent or not
the `i32` variant, else `InconsistentRowLength` when the table is non-empty
and lengths differ — and otherwise appends the row at the end and returns
`Ok`.  On every error the table is unchanged (the error branches return
before the `push`; in this pure embedding the input `t` is simply not
re-built). -/
theorem C3_add_row_guards (t : Table) (r : Row) :
    (t.rows.length ≥ 65535 → t.add_row r = .error .tooManyRows)
      ∧ (t.rows.length < 65535 → r.length > 255 →
          t.add_row r = .error .tooManyColumns)
      ∧ (t.rows.length < 65535 → r.length ≤ 255 →
          (∀ k, r.head? ≠ some (Value.i32 k)) →
          t.add_row r = .error .invalidRowID)
      ∧ (∀ k first rest, t.rows.length < 65535 → r.length ≤ 255 →
          r.head? = some (Value.i32 k) → t.rows = first :: rest →
          first.length ≠ r.length →
          t.add_row r = .error .inconsistentRowLength)
      ∧ (∀ k, t.rows.length < 65535 → r.length ≤ 255 →
          r.head? = some (Value.i32 k) →
          (∀ first rest, t.rows = first :: rest → first.length = r.length) →
          t.add_row r = .ok ⟨t.id, t.rows ++ [r]⟩) := by
  refine ⟨?_, ?_, ?_, ?_, ?_⟩
  · intro h
    rw [Table.add_row, if_pos (by omega)]
  · intro h1 h2
    rw [Table.add_row, if_neg (by omega), if_pos (by omega)]
  · intro h1 h2 h3
    rw [Table.add_row, if_neg (by omega), if_neg (by omega)]
    cases hh : r.head? with
    | none => rfl
    | some v =>
        cases v
        case i32 k => exact absurd hh (h3 k)
        all_goals rfl
  · intro k first rest h1 h2 hk hrows hlen
    rw [Table.add_row, if_neg (by omega), if_neg (by omega), hk, hrows]
    simp only [List.head?_cons]
    rw [if_pos hlen]
  · intro k h1 h2 hk hfirst
    rw [Table.add_row, if_neg (by omega), if_neg (by omega), hk]
    cases hrows : t.rows with
    | nil => rfl
    | cons first rest =>
        simp only [List.head?_cons]
        rw [if_neg (fun hne => hne (hfirst first rest hrows))]

theorem C3_witness :
    Table.add_row ⟨0, List.replicate 65535 [Value.i32 0]⟩ [Value.i32 0]
        = .error .tooManyRows
      ∧ Table.add_row ⟨0, []⟩
          (Value.i32 0 :: List.replicate 255 (Value.u8 0))
          = .error .tooManyColumns
      ∧ Table.add_row ⟨1, []⟩ [Value.u8 0] = .error .invalidRowID
      ∧ Table.add_row ⟨0, [[Value.i32 0, Value.i32 0]]⟩ [Value.i32 0]
          = .error .inconsistentRowLength
      ∧ Table.add_row ⟨1, [[Value.i32 5]]⟩ [Value.i32 7]
          = .ok ⟨1, [[Value.i32 5], [Value.i32 7]]⟩ := by
  refine ⟨?_, ?_, ?_, ?_, ?_⟩
  · exact (C3_add_row_guards ⟨0, List.replicate 65535 [Value.i32 0]⟩
      [Value.i32 0]).1 (by simp only [List.length_replicate]; omega)
  · exact (C3_add_row_guards ⟨0, []⟩
      (Value.i32 0 :: List.replicate 255 (Value.u8 0))).2.1
      (by simp only [List.length_nil]; omega)
      (by simp only [List.length_cons, List.length_replicate]; omega)
  · exact (C3_add_row_guards ⟨1, []⟩ [Value.u8 0]).2.2.1 (by simp) (by simp)
      (fun k => by simp)
  · exact (C3_add_row_guards ⟨0, [[Value.i32 0, Value.i32 0]]⟩
      [Value.i32 0]).2.2.2.1 0 [Value.i32 0, Value.i32 0] [] (by simp)
      (by simp) (by simp) rfl (by simp)
  · exact (C3_add_row_guards ⟨1, [[Value.i32 5]]⟩ [Value.i32 7]).2.2.2.2 7
      (by simp) (by simp) (by simp)
      (fun f rs h => by
        simp only [List.cons.injEq] at h
        simp [← h.1])


/-! ## C1 counterexample, C2 (LBS backpatch / empty table), C9 -/

/-- C1 as stated is false: "valid" defined only as "rows accepted by
`add_row` with string cells ≤ 65 535 bytes" does not make the round trip an
identity, because `add_row` never re-checks column types after the first row
(spec §9 admits this).  The table below is built by two successful `add_row`
calls and contains no strings at all, its serialization succeeds, yet
deserializing reads row 1's `I8 (-1)` cell back through row 0's `u8` tag as
`U8 255`, producing a table different from the original. -/
theorem C1_counterexample :
    (Table.new 1).add_row [Value.i32 0, Value.u8 1]
        = .ok ⟨1, [[Value.i32 0, Value.u8 1]]⟩
      ∧ Table.add_row ⟨1, [[Value.i32 0, Value.u8 1]]⟩
          [Value.i32 0, Value.i8 (-1)]
          = .ok ⟨1, [[Value.i32 0, Value.u8 1], [Value.i32 0, Value.i8 (-1)]]⟩
      ∧ Table.serialize
          ⟨1, [[Value.i32 0, Value.u8 1], [Value.i32 0, Value.i8 (-1)]]⟩
          = .ok [1, 0, 23, 0, 2, 0, 2, 5, 2, 0, 0, 0, 0, 17, 0, 0, 0,
              0, 0, 0, 0, 1, 0, 0, 0, 0, 255]
      ∧ Table.deserialize [1, 0, 23, 0, 2, 0, 2, 5, 2, 0, 0, 0, 0, 17, 0, 0,
          0, 0, 0, 0, 0, 1, 0, 0, 0, 0, 255]
          = .ok ⟨1, [[Value.i32 0, Value.u8 1], [Value.i32 0, Value.u8 255]]⟩
      ∧ (⟨1, [[Value.i32 0, Value.u8 1], [Value.i32 0, Value.u8 255]]⟩
            : Table)
          ≠ ⟨1, [[Value.i32 0, Value.u8 1], [Value.i32 0, Value.i8 (-1)]]⟩ := by
  refine ⟨by decide, by decide, by decide, by decide, by decide⟩

theorem C1_witness :
    Table.valid ⟨1, [[Value.i32 3, Value.string [104, 105]],
        [Value.i32 7, Value.string [195, 169]]]⟩ = true
      ∧ Table.serialize ⟨1, [[Value.i32 3, Value.string [104, 105]],
          [Value.i32 7, Value.string [195, 169]]]⟩
          = .ok [1, 0, 31, 0, 2, 0, 2, 5, 11, 3, 0, 0, 0, 17, 0, 0, 0,
              3, 0, 0, 0, 1, 2, 0, 104, 105, 7, 0, 0, 0, 0, 2, 0, 195, 169]
      ∧ Table.deserialize [1, 0, 31, 0, 2, 0, 2, 5, 11, 3, 0, 0, 0, 17, 0,
          0, 0, 3, 0, 0, 0, 1, 2, 0, 104, 105, 7, 0, 0, 0, 0, 2, 0, 195, 169]
          = .ok ⟨1, [[Value.i32 3, Value.string [104, 105]],
              [Value.i32 7, Value.string [195, 169]]]⟩ :=
  ⟨by decide, by decide,
    by
      have h := C1_serialize_deserialize
        ⟨1, [[Value.i32 3, Value.string [104, 105]],
          [Value.i32 7, Value.string [195, 169]]]⟩
        [1, 0, 31, 0, 2, 0, 2, 5, 11, 3, 0, 0, 0, 17, 0, 0, 0,
          3, 0, 0, 0, 1, 2, 0, 104, 105, 7, 0, 0, 0, 0, 2, 0, 195, 169]
        (by decide) (by decide)
      exact h⟩

/-- C2: after a successful `serialize` of a table with at least one row, the
two bytes at offset 2 hold the little-endian `(file size − 4) mod 65 536`; an
empty table serializes to exactly 6 bytes; the empty table with id 1
serializes to `01 00 02 00 00 00`, which re-deserializes to the same empty
table. -/
theorem C2_lbs_backpatch :
    (∀ (t : Table) (buf : List Nat), t.rows ≠ [] → t.serialize = .ok buf →
        (buf.drop 2).take 2 = leN 2 ((buf.length - 4) % 65536))
      ∧ (∀ (t : Table) (buf : List Nat), t.rows = [] →
          t.serialize = .ok buf → buf.length = 6)
      ∧ Table.serialize ⟨1, []⟩ = .ok [1, 0, 2, 0, 0, 0]
      ∧ Table.deserialize [1, 0, 2, 0, 0, 0] = .ok ⟨1, []⟩ := by
  refine ⟨?_, ?_, by decide, by decide⟩
  · intro t buf hne hs
    obtain ⟨tid, trows⟩ := t
    cases trows with
    | nil => exact absurd rfl hne
    | cons first rest =>
        obtain ⟨hN, hC, hJlen, hbound, hbuf⟩ := serialize_shape tid first rest hs
        subst hbuf
        have hd0 : (finalBytes ⟨tid, first :: rest⟩).drop 0
            = leN 2 tid ++ (leN 2 (lbsOf ⟨tid, first :: rest⟩)
              ++ (leN 2 (first :: rest).length
                ++ (first.length :: (first.map Value.type_as_u8
                  ++ (jtBytes (capturesOf ⟨tid, first :: rest⟩)
                    ++ payloadBytes (first :: rest)))))) := by
          simp [finalBytes, colCount, tagList, List.append_assoc]
        have hd2 := drop_of_drop_append hd0
        rw [leN_length] at hd2
        norm_num at hd2
        have htake : ((finalBytes ⟨tid, first :: rest⟩).drop 2).take 2
            = leN 2 (lbsOf ⟨tid, first :: rest⟩) := by
          rw [hd2]
          rw [show (2 : Nat) = (leN 2 (lbsOf ⟨tid, first :: rest⟩)).length
            from (leN_length 2 _).symm]
          exact List.take_left _ _
        rw [htake]
        congr 1
        have hflen : (finalBytes ⟨tid, first :: rest⟩).length
            = (preBytes ⟨tid, first :: rest⟩).length
              + (payloadBytes (first :: rest)).length := by
          simp [finalBytes, preBytes, List.length_append, leN_length,
            jtBytes_length, jumpPlaceholder_length, hJlen, jSize, colCount,
            tagList, List.length_map]
          omega
        rw [hflen]
        rfl
  · intro t buf hnil hs
    obtain ⟨tid, trows⟩ := t
    simp only at hnil
    subst hnil
    simp only [Table.serialize, List.length_nil] at hs
    rw [if_neg (by omega)] at hs
    rw [wwrite_wwrite, wwrite_wwrite, wwrite_nil_cursor] at hs
    rw [← Except.ok.inj hs]
    simp [List.length_append, leN_length]

theorem C2_witness :
    (([[Value.i32 0]] : List Row) ≠ [])
      ∧ Table.serialize ⟨1, [[Value.i32 0]]⟩
          = .ok [1, 0, 16, 0, 1, 0, 1, 5, 0, 0, 0, 0, 16, 0, 0, 0,
              0, 0, 0, 0]
      ∧ (([1, 0, 16, 0, 1, 0, 1, 5, 0, 0, 0, 0, 16, 0, 0, 0, 0, 0, 0, 0]
            : List Nat).drop 2).take 2
          = leN 2 ((([1, 0, 16, 0, 1, 0, 1, 5, 0, 0, 0, 0, 16, 0, 0, 0,
              0, 0, 0, 0] : List Nat).length - 4) % 65536) :=
  ⟨by decide, by decide,
    C2_lbs_backpatch.1 ⟨1, [[Value.i32 0]]⟩ _ (by decide) (by decide)⟩

/-- C9: a byte stream accepted by `Table::deserialize` (its last-block-size
check passes) whose single column's type tag is 2 (`u8`), a valid tag other
than 5: the resulting table's first cell is `U8 7`, not an `i32` row id, so
`deserialize` does not establish the invariant `add_row` enforces, and
re-serializing that table fails with `InvalidRowID` while bookmarking
row 0. -/
theorem C9_deserialize_no_rowid_invariant :
    Table.deserialize [1, 0, 13, 0, 1, 0, 1, 2, 0, 0, 0, 0, 16, 0, 0, 0, 7]
        = .ok ⟨1, [[Value.u8 7]]⟩
      ∧ (∀ k, Value.as_i32 (Value.u8 7) ≠ some k)
      ∧ Table.serialize ⟨1, [[Value.u8 7]]⟩ = .error .invalidRowID := by
  refine ⟨by decide, fun k => by simp [Value.as_i32], by decide⟩


/-! ## C4: jump-table contents -/

/-- The id the row loop bookmarks for a row: `as_i32` of its first cell. -/
def idOfRow (r : Row) : Int :=
  match r.head? with
  | some v => (v.as_i32).getD 0
  | none => 0

theorem payloadBytes_append (a b : List Row) :
    payloadBytes (a ++ b) = payloadBytes a ++ payloadBytes b := by
  simp [payloadBytes, List.flatten_append]

theorem capturesF_mod : ∀ (rows : List Row) (i j p : Nat),
    i % 100 = j % 100 → capturesF rows i p = capturesF rows j p := by
  intro rows
  induction rows with
  | nil => intro i j p _; rfl
  | cons r rest ih =>
      intro i j p hij
      rw [capturesF, capturesF]
      rw [show rowCapture i p r = rowCapture j p r from by
        rw [rowCapture, rowCapture, hij]]
      rw [ih (i + 1) (j + 1) _ (by omega)]

theorem capturesF_skip : ∀ (rows : List Row) (i p : Nat), i % 100 ≠ 0 →
    capturesF rows i p
      = capturesF (rows.drop (100 - i % 100)) (i + (100 - i % 100))
          (p + (payloadBytes (rows.take (100 - i % 100))).length) := by
  intro rows
  induction rows with
  | nil =>
      intro i p _
      simp [capturesF, payloadBytes]
  | cons r rest ih =>
      intro i p hi
      have hmod : i % 100 < 100 := Nat.mod_lt _ (by norm_num)
      rw [capturesF, rowCapture, if_neg hi]
      simp only [List.nil_append]
      have hd : 100 - i % 100 = (100 - i % 100 - 1) + 1 := by omega
      rw [hd, List.drop_succ_cons, List.take_succ_cons, payloadBytes_cons]
      by_cases h99 : i % 100 = 99
      · have h1 : 100 - i % 100 - 1 = 0 := by omega
        rw [h1]
        simp [payloadBytes_nil]
      · have hne : (i + 1) % 100 ≠ 0 := by omega
        rw [ih (i + 1) (p + (rowBytes r).length) hne]
        have e1 : 100 - (i + 1) % 100 = 100 - i % 100 - 1 := by omega
        have e2 : i + 1 + (100 - i % 100 - 1) = i + (100 - i % 100 - 1 + 1) := by
          omega
        have e3 : p + (rowBytes r).length
            + (payloadBytes (rest.take (100 - i % 100 - 1))).length
            = p + (rowBytes r
                ++ payloadBytes (rest.take (100 - i % 100 - 1))).length := by
          simp [List.length_append]
          omega
        rw [e1, e2, e3]

theorem capturesF_chunk (r : Row) (rest : List Row) (p : Nat) :
    capturesF (r :: rest) 0 p
      = rowCapture 0 p r
        ++ capturesF (rest.drop 99) 0
            (p + (rowBytes r).length
              + (payloadBytes (rest.take 99)).length) := by
  rw [capturesF]
  congr 1
  have h := capturesF_skip rest 1 (p + (rowBytes r).length) (by norm_num)
  norm_num at h
  rw [h]
  exact capturesF_mod _ 100 0 _ (by norm_num)

theorem capturesF_get :
    ∀ (k : Nat) (rows : List Row) (p : Nat),
      (∀ r ∈ rows, r ≠ []) → 100 * k < rows.length →
      (capturesF rows 0 p).get? k
        = some (idOfRow ((rows.get? (100 * k)).getD []),
            p + (payloadBytes (rows.take (100 * k))).length) := by
  intro k
  induction k with
  | zero =>
      intro rows p hne hlt
      cases rows with
      | nil => simp at hlt
      | cons r rest =>
          rw [capturesF, rowCapture, if_pos (by norm_num)]
          obtain ⟨v, hv⟩ : ∃ v, r.head? = some v := by
            cases r with
            | nil => exact absurd rfl (hne [] (by simp))
            | cons a as => exact ⟨a, rfl⟩
          rw [hv]
          simp [idOfRow, hv, payloadBytes_nil]
  | succ k ih =>
      intro rows p hne hlt
      cases rows with
      | nil => simp at hlt
      | cons r rest =>
          rw [capturesF_chunk]
          obtain ⟨v, hv⟩ : ∃ v, r.head? = some v := by
            have hr := hne r (by simp)
            cases r with
            | nil => exact absurd rfl hr
            | cons a as => exact ⟨a, rfl⟩
          rw [rowCapture, if_pos (by norm_num), hv]
          rw [List.singleton_append, List.get?_cons_succ]
          rw [ih (rest.drop 99)
            (p + (rowBytes r).length + (payloadBytes (rest.take 99)).length)
            (fun r' hr' => hne r' (by
              simp only [List.mem_cons]
              exact Or.inr (List.drop_subset _ _ hr')))
            (by
              simp only [List.length_drop]
              simp only [List.length_cons] at hlt
              omega)]
          congr 2
          · congr 1
            rw [List.get?_drop]
            rw [show 100 * (k + 1) = (99 + 100 * k) + 1 from by ring]
            rw [List.get?_cons_succ]
          · rw [show 100 * (k + 1) = 99 + 100 * k + 1 from by ring]
            rw [List.take_succ_cons, payloadBytes_cons,
              List.take_add rest 99 (100 * k), payloadBytes_append]
            simp [List.length_append]
            omega


theorem rowCapture_length_le (i p : Nat) (r : Row) :
    (rowCapture i p r).length ≤ 1 := by
  rw [rowCapture]
  split_ifs
  · cases r.head? <;> simp
  · simp

theorem capturesF_length_le :
    ∀ (n : Nat) (rows : List Row) (p : Nat), rows.length ≤ n →
      (capturesF rows 0 p).length ≤ (rows.length + 99) / 100 := by
  intro n
  induction n with
  | zero =>
      intro rows p h
      have : rows = [] := by
        cases rows with
        | nil => rfl
        | cons a as => simp at h
      subst this
      simp [capturesF]
  | succ n ih =>
      intro rows p h
      cases rows with
      | nil => simp [capturesF]
      | cons r rest =>
          rw [capturesF_chunk, List.length_append]
          have h1 := rowCapture_length_le 0 p r
          have h2 := ih (rest.drop 99)
            (p + (rowBytes r).length + (payloadBytes (rest.take 99)).length)
            (by simp only [List.length_drop]
                simp only [List.length_cons] at h
                omega)
          simp only [List.length_drop] at h2
          simp only [List.length_cons]
          omega

/-- C4: for a non-empty, valid table that serializes successfully, the jump
table holds exactly `1 + ⌊N/100⌋` eight-byte entries starting at byte
`7 + C`; entry `k` is the row id and absolute file offset of row `100·k`,
and the first entry's offset is `7 + C + 8·(1 + ⌊N/100⌋)`, the start of
row 0's payload. -/
theorem C4_jump_table (tid : Nat) (first : Row) (rest : List Row)
    (buf : List Nat) (hv : Table.valid ⟨tid, first :: rest⟩ = true)
    (hs : Table.serialize ⟨tid, first :: rest⟩ = .ok buf) :
    (capturesOf ⟨tid, first :: rest⟩).length
        = 1 + (first :: rest).length / 100
      ∧ (jtBytes (capturesOf ⟨tid, first :: rest⟩)).length
          = 8 * (1 + (first :: rest).length / 100)
      ∧ (buf.drop (7 + first.length)).take
            (8 * (1 + (first :: rest).length / 100))
          = jtBytes (capturesOf ⟨tid, first :: rest⟩)
      ∧ (∀ k, k < 1 + (first :: rest).length / 100 →
          (capturesOf ⟨tid, first :: rest⟩).get? k
            = some (idOfRow (((first :: rest).get? (100 * k)).getD []),
                (preBytes ⟨tid, first :: rest⟩).length
                  + (payloadBytes ((first :: rest).take (100 * k))).length))
      ∧ (capturesOf ⟨tid, first :: rest⟩).get? 0
          = some (idOfRow first,
              7 + first.length + 8 * (1 + (first :: rest).length / 100)) := by
  obtain ⟨hN, hC, hJlen, hbound, hbuf⟩ := serialize_shape tid first rest hs
  obtain ⟨hid, hN65, hC255, ⟨kk, hh⟩, hall⟩ := valid_spec tid first rest hv
  subst hbuf
  have hfne : first ≠ [] := by
    intro hnil
    rw [hnil] at hh
    exact Option.noConfusion hh
  have hnonempty : ∀ r ∈ first :: rest, r ≠ [] := by
    intro r hr hnil
    have hmap := (hall r hr).2
    rw [hnil] at hmap
    cases hfcases : first with
    | nil => exact hfne hfcases
    | cons a as =>
        rw [hfcases] at hmap
        simp at hmap
  have hJ : (capturesOf ⟨tid, first :: rest⟩).length
      = 1 + (first :: rest).length / 100 := hJlen
  have hlen_le := capturesF_length_le (first :: rest).length (first :: rest)
    (preBytes ⟨tid, first :: rest⟩).length (le_refl _)
  have hentry : ∀ k, k < 1 + (first :: rest).length / 100 →
      (capturesOf ⟨tid, first :: rest⟩).get? k
        = some (idOfRow (((first :: rest).get? (100 * k)).getD []),
            (preBytes ⟨tid, first :: rest⟩).length
              + (payloadBytes ((first :: rest).take (100 * k))).length) := by
    intro k hk
    have hlen2 : 1 + (first :: rest).length / 100
        ≤ ((first :: rest).length + 99) / 100 := by
      rw [← hJ]
      simpa [capturesOf] using hlen_le
    have h100k : 100 * k < (first :: rest).length := by omega
    exact capturesF_get k (first :: rest)
      (preBytes ⟨tid, first :: rest⟩).length hnonempty h100k
  refine ⟨hJ, by rw [jtBytes_length, hJ], ?_, hentry, ?_⟩
  · -- the slice of the final buffer at offset 7 + C
    have hd0 : (finalBytes ⟨tid, first :: rest⟩).drop 0
        = leN 2 tid ++ (leN 2 (lbsOf ⟨tid, first :: rest⟩)
          ++ (leN 2 (first :: rest).length
            ++ (first.length :: (first.map Value.type_as_u8
              ++ (jtBytes (capturesOf ⟨tid, first :: rest⟩)
                ++ payloadBytes (first :: rest)))))) := by
      simp [finalBytes, colCount, tagList, List.append_assoc]
    have hd2 := drop_of_drop_append hd0
    rw [leN_length] at hd2
    norm_num at hd2
    have hd4 := drop_of_drop_append hd2
    rw [leN_length] at hd4
    norm_num at hd4
    have hd6 := drop_of_drop_append hd4
    rw [leN_length] at hd6
    norm_num at hd6
    have hd7 := drop_of_drop_cons hd6
    norm_num at hd7
    have hd7C := drop_of_drop_append hd7
    rw [List.length_map] at hd7C
    rw [hd7C]
    rw [show 8 * (1 + (first :: rest).length / 100)
      = (jtBytes (capturesOf ⟨tid, first :: rest⟩)).length from by
        rw [jtBytes_length, hJ]]
    exact List.take_left _ _
  · have h0 := hentry 0 (by omega)
    rw [h0]
    have hp : (preBytes ⟨tid, first :: rest⟩).length
        = 7 + first.length + 8 * (1 + (first :: rest).length / 100) := by
      rw [preBytes_length]
      simp [colCount, jSize]
    simp [hp, payloadBytes_nil]

theorem C4_witness :
    Table.valid ⟨1, [[Value.i32 0]]⟩ = true
      ∧ Table.serialize ⟨1, [[Value.i32 0]]⟩
          = .ok [1, 0, 16, 0, 1, 0, 1, 5, 0, 0, 0, 0, 16, 0, 0, 0, 0, 0, 0, 0]
      ∧ (capturesOf ⟨1, [[Value.i32 0]]⟩).get? 0 = some (0, 16) := by
  refine ⟨by decide, by decide, ?_⟩
  have h := C4_jump_table 1 [Value.i32 0] []
      [1, 0, 16, 0, 1, 0, 1, 5, 0, 0, 0, 0, 16, 0, 0, 0, 0, 0, 0, 0]
      (by decide) (by decide)
  exact h.2.2.2.2


/-! ## String splitting and integer parsing (`str::split`, `FromStr`)

Rust strings appear below as lists of Unicode scalar values (in
`definitions.rs`, which works at the `char` level) and as UTF-8 byte lists
(in `table.rs` cell payloads); both are `List Nat` and the splitting code is
agnostic.  `splitList` models `str::split` with a non-empty separator: split
at each non-overlapping occurrence, scanning left to right.  `splitOnce`
models `str::splitn(2, sep)`. -/

def isPrefixB : List Nat → List Nat → Bool
  | [], _ => true
  | _ :: _, [] => false
  | a :: as, b :: bs => if a = b then isPrefixB as bs else false

/-- Index of the first occurrence of `sep` in `s` (`str::find`). -/
def findSub (sep : List Nat) : List Nat → Option Nat
  | [] => if sep.isEmpty then some 0 else none
  | b :: rest =>
      if isPrefixB sep (b :: rest) then some 0
      else (findSub sep rest).map (· + 1)

def splitListF : Nat → List Nat → List Nat → List (List Nat)
  | 0, _, s => [s]
  | fuel + 1, sep, s =>
      match findSub sep s with
      | none => [s]
      | some i => s.take i :: splitListF fuel sep (s.drop (i + sep.length))

/-- `str::split` by separator `sep` (meaningful for `sep ≠ []`). -/
def splitList (sep s : List Nat) : List (List Nat) :=
  splitListF (s.length + 1) sep s

/-- `str::splitn(2, sep)`: split only at the first occurrence. -/
def splitOnce (sep s : List Nat) : List (List Nat) :=
  match findSub sep s with
  | none => [s]
  | some i => [s.take i, s.drop (i + sep.length)]

/-- Decimal digit value of a character. -/
def digitVal (c : Nat) : Option Nat :=
  if 48 ≤ c ∧ c ≤ 57 then some (c - 48) else none

/-- Digit-accumulation loop of Rust `from_str_radix` for an unsigned type
with maximum value `max`: checked `acc * 10 + d`, overflow is
`PosOverflow`. -/
def parseDigits (max : Nat) : List Nat → Nat → Except ParseIntErr Nat
  | [], acc => .ok acc
  | c :: rest, acc =>
      match digitVal c with
      | none => .error .invalidDigit
      | some d =>
          if max < acc * 10 + d then .error .posOverflow
          else parseDigits max rest (acc * 10 + d)

/-- Rust `uN::from_str`: empty input is `Empty`; a lone sign is
`InvalidDigit`; a leading `+` is stepped over; `-` on an unsigned type falls
through to the digit loop and is `InvalidDigit`; overflow is
`PosOverflow`. -/
def parseUnsigned (max : Nat) (s : List Nat) : Except ParseIntErr Nat :=
  match s with
  | [] => .error .empty
  | 43 :: rest => if rest.isEmpty then .error .invalidDigit else parseDigits max rest 0
  | _ => parseDigits max s 0

def parseU16 (s : List Nat) : Except ParseIntErr Nat := parseUnsigned 65535 s

/-- `str::parse::<uN>().ok()` with maximum `max`. -/
def parseUOpt (max : Nat) (s : List Nat) : Option Nat :=
  match parseUnsigned max s with
  | .ok n => some n
  | .error _ => none

/-- Rust `iN::from_str` success as an `Option`: optional sign, digit loop,
range `[lo, hi]`; the checked accumulation makes any out-of-range result a
failure. -/
def parseIOpt (lo hi : Int) (s : List Nat) : Option Int :=
  match s with
  | [] => none
  | 43 :: rest =>
      if rest.isEmpty then none
      else
        match parseDigits hi.toNat rest 0 with
        | .ok n => some (n : Int)
        | .error _ => none
  | 45 :: rest =>
      if rest.isEmpty then none
      else
        match parseDigits (-lo).toNat rest 0 with
        | .ok n => some (-(n : Int))
        | .error _ => none
  | _ =>
      match parseDigits hi.toNat s 0 with
      | .ok n => some (n : Int)
      | .error _ => none

/-! ## Association-list models of `HashMap` and `IndexMap`

Both `HashMap::insert` and `IndexMap::insert` replace the value of an
existing key in place and otherwise add a new entry; `IndexMap` additionally
iterates in insertion (first-occurrence) order, which the in-place-replace
association list realizes directly.  `HashMap` iteration order is
arbitrary, so only `hmLookup` facts about a `HashMap` model are
observable. -/

def hmInsert {K V : Type} [DecidableEq K] (m : List (K × V)) (k : K) (v : V) :
    List (K × V) :=
  match m with
  | [] => [(k, v)]
  | (k2, v2) :: rest =>
      if k2 = k then (k, v) :: rest else (k2, v2) :: hmInsert rest k v

def hmLookup {K V : Type} [DecidableEq K] (k : K) : List (K × V) → Option V
  | [] => none
  | (k2, v) :: rest => if k2 = k then some v else hmLookup k rest

def hmKeys {K V : Type} (m : List (K × V)) : List K := m.map Prod.fst

/-- `collect` of an iterator of pairs into a `HashMap`. -/
def hmOfList {K V : Type} [DecidableEq K] (l : List (K × V)) : List (K × V) :=
  l.foldl (fun m q => hmInsert m q.1 q.2) []

/-- Value of the last pair with key `k` in a pair list. -/
def lastVal {K V : Type} [DecidableEq K] (k : K) : List (K × V) → Option V
  | [] => none
  | q :: rest =>
      match lastVal k rest with
      | some v => some v
      | none => if q.1 = k then some q.2 else none

/-- `collect::<Option<Vec<_>>>()`. -/
def seqOption {α : Type} : List (Option α) → Option (List α)
  | [] => some []
  | none :: _ => none
  | some a :: rest => (seqOption rest).map (a :: ·)

theorem hmLookup_hmInsert {K V : Type} [DecidableEq K]
    (m : List (K × V)) (k k2 : K) (v : V) :
    hmLookup k2 (hmInsert m k v)
      = if k = k2 then some v else hmLookup k2 m := by
  induction m with
  | nil => simp [hmInsert, hmLookup]
  | cons q rest ih =>
      obtain ⟨k1, v1⟩ := q
      by_cases h1 : k1 = k
      · simp only [hmInsert, if_pos h1, hmLookup]
        by_cases h2 : k = k2
        · rw [if_pos h2, if_pos h2]
        · rw [if_neg h2, if_neg h2, if_neg (fun hc => h2 (h1 ▸ hc))]
      · simp only [hmInsert, if_neg h1, hmLookup, ih]
        by_cases h2 : k1 = k2
        · rw [if_pos h2]
          by_cases h3 : k = k2
          · exact absurd (h2.trans h3.symm) h1
          · rw [if_neg h3, if_pos h2]
        · rw [if_neg h2]
          by_cases h3 : k = k2
          · rw [if_pos h3, if_pos h3]
          · rw [if_neg h3, if_neg h3, if_neg h2]

theorem hmKeys_hmInsert {K V : Type} [DecidableEq K]
    (m : List (K × V)) (k : K) (v : V) :
    hmKeys (hmInsert m k v)
      = if k ∈ hmKeys m then hmKeys m else hmKeys m ++ [k] := by
  induction m with
  | nil => simp [hmInsert, hmKeys]
  | cons q rest ih =>
      obtain ⟨k1, v1⟩ := q
      by_cases h1 : k1 = k
      · simp only [hmInsert, if_pos h1, hmKeys, List.map_cons]
        rw [if_pos (by rw [h1]; exact List.mem_cons_self _ _)]
        rw [h1]
      · simp only [hmInsert, if_neg h1, hmKeys, List.map_cons] at ih ⊢
        rw [ih]
        by_cases h2 : k ∈ List.map Prod.fst rest
        · rw [if_pos h2, if_pos (List.mem_cons_of_mem k1 h2)]
        · rw [if_neg h2, if_neg (by
              simp only [List.mem_cons]
              push_neg
              exact ⟨fun hc => h1 hc.symm, h2⟩)]
          simp

theorem hmLookup_foldl_insert {K V : Type} [DecidableEq K]
    (l : List (K × V)) (acc : List (K × V)) (k : K) :
    hmLookup k (l.foldl (fun m q => hmInsert m q.1 q.2) acc)
      = match lastVal k l with
        | some v => some v
        | none => hmLookup k acc := by
  induction l generalizing acc with
  | nil => simp [lastVal]
  | cons q rest ih =>
      simp only [List.foldl_cons, lastVal]
      rw [ih]
      cases hlv : lastVal k rest with
      | some v => simp
      | none =>
          simp only [hmLookup_hmInsert]
          by_cases h : q.1 = k <;> simp [h]

theorem hmLookup_hmOfList {K V : Type} [DecidableEq K]
    (l : List (K × V)) (k : K) :
    hmLookup k (hmOfList l) = lastVal k l := by
  have h := hmLookup_foldl_insert l [] k
  rw [hmOfList, h]
  cases lastVal k l <;> simp [hmLookup]

/-- First-occurrence de-duplication with a seen accumulator. -/
def dedupF {K : Type} [DecidableEq K] (seen : List K) : List K → List K
  | [] => []
  | x :: xs => if x ∈ seen then dedupF seen xs else x :: dedupF (x :: seen) xs

def dedupKeepFirst {K : Type} [DecidableEq K] (l : List K) : List K :=
  dedupF [] l

theorem dedupF_congr {K : Type} [DecidableEq K] (l : List K) :
    ∀ s1 s2 : List K, (∀ x, x ∈ s1 ↔ x ∈ s2) → dedupF s1 l = dedupF s2 l := by
  induction l with
  | nil => intro s1 s2 _; rfl
  | cons x xs ih =>
      intro s1 s2 h
      simp only [dedupF]
      by_cases hx : x ∈ s1
      · rw [if_pos hx, if_pos ((h x).mp hx)]
        exact ih s1 s2 h
      · rw [if_neg hx, if_neg (fun hc => hx ((h x).mpr hc))]
        rw [ih (x :: s1) (x :: s2) (by intro y; simp [h y])]

theorem dedupF_of_nodup {K : Type} [DecidableEq K] (l : List K) :
    ∀ seen : List K, l.Nodup → (∀ x ∈ l, x ∉ seen) → dedupF seen l = l := by
  induction l with
  | nil => intro seen _ _; rfl
  | cons x xs ih =>
      intro seen hnd hns
      have hx : x ∉ seen := hns x (by simp)
      simp only [dedupF, if_neg hx]
      rw [ih (x :: seen) (List.nodup_cons.mp hnd).2]
      intro y hy
      simp only [List.mem_cons]
      push_neg
      exact ⟨fun he => (List.nodup_cons.mp hnd).1 (he ▸ hy),
        hns y (List.mem_cons_of_mem x hy)⟩


/-! ## `Table::value`, `Table::vector`, `Table::map` (`src/table.rs`)

The positional accessors are generic over the Rust conversion traits
(`TryFrom<&Value>` / `FromStr`); the conversions are passed explicitly as
functions.  In `Table::map` the closure calls `split.next()` twice on a
full `split(kv_separator)` iterator, i.e. it takes the first two pieces of
a full split. -/

/-- `Table::value`: `TryFrom<&Value>` is passed as `conv`. -/
def Table.value {T : Type} (conv : Value → Option T) (t : Table)
    (row col : Nat) : Except Error T :=
  match t.rows.get? row with
  | none => .error .rowNotFound
  | some r =>
      match r.get? col with
      | none => .error .columnNotFound
      | some v =>
          match conv v with
          | none => .error .valueConversionFailed
          | some x => .ok x

/-- `Table::vector`: split a string cell by `separator`, parse every
piece, fail on the first parse error. -/
def Table.vector {T : Type} (pe : List Nat → Option T) (t : Table)
    (row col : Nat) (sep : List Nat) : Except Error (List T) :=
  match t.rows.get? row with
  | none => .error .rowNotFound
  | some r =>
      match r.get? col with
      | none => .error .columnNotFound
      | some (Value.string s) =>
          match seqOption ((splitList sep s).map pe) with
          | none => .error .valueConversionFailed
          | some l => .ok l
      | some _ => .error .invalidColumnType

/-- The closure body of `Table::map`: `k` and `v` are the first two pieces
of `piece.split(kv_separator)`, parsed, then zipped. -/
def kvOfCode {K V : Type} (pk : List Nat → Option K) (pv : List Nat → Option V)
    (ksep piece : List Nat) : Option (K × V) :=
  match splitList ksep piece with
  | [] => none
  | [_] => none
  | k :: v :: _ =>
      match pk k, pv v with
      | some a, some b => some (a, b)
      | _, _ => none

/-- `Table::map`. -/
def Table.map {K V : Type} [DecidableEq K] (pk : List Nat → Option K)
    (pv : List Nat → Option V) (t : Table) (row col : Nat)
    (psep ksep : List Nat) : Except Error (List (K × V)) :=
  match t.rows.get? row with
  | none => .error .rowNotFound
  | some r =>
      match r.get? col with
      | none => .error .columnNotFound
      | some (Value.string s) =>
          match seqOption ((splitList psep s).map (kvOfCode pk pv ksep)) with
          | none => .error .valueConversionFailed
          | some pairs => .ok (hmOfList pairs)
      | some _ => .error .invalidColumnType

/-- The specification wording of the `Table::map` closure: split each piece
ONCE by `kv_separator` (`splitn(2, …)`), so that a second occurrence of the
separator stays attached to `v`. -/
def kvOfSpec {K V : Type} (pk : List Nat → Option K) (pv : List Nat → Option V)
    (ksep piece : List Nat) : Option (K × V) :=
  match splitOnce ksep piece with
  | [k, v] =>
      match pk k, pv v with
      | some a, some b => some (a, b)
      | _, _ => none
  | _ => none

/-- `Table::map` as the specification words it (split once per piece). -/
def Table.mapSpec {K V : Type} [DecidableEq K] (pk : List Nat → Option K)
    (pv : List Nat → Option V) (t : Table) (row col : Nat)
    (psep ksep : List Nat) : Except Error (List (K × V)) :=
  match t.rows.get? row with
  | none => .error .rowNotFound
  | some r =>
      match r.get? col with
      | none => .error .columnNotFound
      | some (Value.string s) =>
          match seqOption ((splitList psep s).map (kvOfSpec pk pv ksep)) with
          | none => .error .valueConversionFailed
          | some pairs => .ok (hmOfList pairs)
      | some _ => .error .invalidColumnType

theorem isPrefixB_length (p s : List Nat) (h : isPrefixB p s = true) :
    p.length ≤ s.length := by
  induction p generalizing s with
  | nil => simp
  | cons a as ih =>
      cases s with
      | nil => simp [isPrefixB] at h
      | cons b bs =>
          simp only [isPrefixB] at h
          split_ifs at h
          simp only [List.length_cons]
          exact Nat.succ_le_succ (ih bs h)

theorem findSub_some_le (sep s : List Nat) (i : Nat) (hsep : sep ≠ [])
    (h : findSub sep s = some i) : i + sep.length ≤ s.length := by
  induction s generalizing i with
  | nil =>
      simp only [findSub, List.isEmpty_iff] at h
      rw [if_neg hsep] at h
      cases h
  | cons b bs ih =>
      simp only [findSub] at h
      split_ifs at h with hpre
      · injection h with h
        subst h
        simpa using isPrefixB_length sep (b :: bs) hpre
      · cases hfs : findSub sep bs with
        | none => rw [hfs] at h; cases h
        | some j =>
            rw [hfs] at h
            simp only [Option.map, Option.some.injEq] at h
            have hj := ih j hfs
            simp only [List.length_cons]
            omega

theorem splitListF_ne_nil (fuel : Nat) (sep s : List Nat) :
    splitListF fuel sep s ≠ [] := by
  cases fuel with
  | zero => simp [splitListF]
  | succ n =>
      simp only [splitListF]
      cases findSub sep s <;> simp

theorem splitListF_irrel (sep : List Nat) (hsep : sep ≠ []) :
    ∀ (fuel1 fuel2 : Nat) (s : List Nat), s.length < fuel1 →
      s.length < fuel2 → splitListF fuel1 sep s = splitListF fuel2 sep s := by
  intro fuel1
  induction fuel1 with
  | zero => intro fuel2 s h1; omega
  | succ n ih =>
      intro fuel2 s h1 h2
      cases fuel2 with
      | zero => omega
      | succ m =>
          cases hfs : findSub sep s with
          | none => simp only [splitListF, hfs]
          | some i =>
              simp only [splitListF, hfs]
              have hle := findSub_some_le sep s i hsep hfs
              have hlz : sep.length ≠ 0 :=
                fun hz => hsep (List.eq_nil_of_length_eq_zero hz)
              have hlen : (s.drop (i + sep.length)).length < s.length := by
                rw [List.length_drop]
                omega
              rw [ih m (s.drop (i + sep.length)) (by omega) (by omega)]

/-- One-step unfolding of `splitList` for a non-empty separator. -/
theorem splitList_step (sep s : List Nat) (hsep : sep ≠ []) :
    splitList sep s = match findSub sep s with
      | none => [s]
      | some i => s.take i :: splitList sep (s.drop (i + sep.length)) := by
  cases hfs : findSub sep s with
  | none => simp only [splitList, splitListF, hfs]
  | some i =>
      simp only [splitList, splitListF, hfs]
      have hle := findSub_some_le sep s i hsep hfs
      have hlz : sep.length ≠ 0 :=
        fun hz => hsep (List.eq_nil_of_length_eq_zero hz)
      rw [splitListF_irrel sep hsep s.length ((s.drop (i + sep.length)).length + 1)
        (s.drop (i + sep.length)) (by rw [List.length_drop]; omega) (by omega)]
      simp only [splitListF]


theorem splitList_ne_nil (sep s : List Nat) : splitList sep s ≠ [] :=
  splitListF_ne_nil (s.length + 1) sep s

/-- C6 counterexample: on the single-piece cell `"a:1:2"` with
`kv_separator = ":"`, the claim (split each piece ONCE into `(k, v)`) makes
`v = "1:2"`, which fails to parse as an integer, so the call should return
`ValueConversionFailed`; the code instead takes the first two pieces of a
full split (`v = "1"`) and succeeds. -/
theorem C6_counterexample :
    Table.map some (parseUOpt 255)
        ⟨1, [[Value.string [97, 58, 49, 58, 50]]]⟩ 0 0 [44] [58]
        = .ok [([97], 1)]
      ∧ Table.mapSpec some (parseUOpt 255)
          ⟨1, [[Value.string [97, 58, 49, 58, 50]]]⟩ 0 0 [44] [58]
          = .error .valueConversionFailed := by
  exact ⟨by decide, by decide⟩

/-- C6 (amended): for an in-bounds string cell, `Table::map` splits by
`pair_separator` and takes the FIRST TWO pieces of a full split of each
piece by `kv_separator` (a third piece is dropped, not kept attached to
`v`), parses both sides, fails with `ValueConversionFailed` as soon as any
piece yields no pair, and collects the pairs into a map in which the last
pair with a given key wins; the code and the spec wording agree exactly on
pieces with at most one `kv_separator` occurrence; an in-bounds non-string
cell yields `InvalidColumnType`. -/
theorem C6_map_semantics {K V : Type} [DecidableEq K]
    (pk : List Nat → Option K) (pv : List Nat → Option V)
    (t : Table) (row col : Nat) (psep ksep : List Nat) (r : Row)
    (s : List Nat) (hr : t.rows.get? row = some r)
    (hc : r.get? col = some (Value.string s)) :
    (∀ pairs, seqOption ((splitList psep s).map (kvOfCode pk pv ksep)) = some pairs →
        Table.map pk pv t row col psep ksep = .ok (hmOfList pairs)
          ∧ ∀ k, hmLookup k (hmOfList pairs) = lastVal k pairs)
      ∧ (seqOption ((splitList psep s).map (kvOfCode pk pv ksep)) = none →
          Table.map pk pv t row col psep ksep = .error .valueConversionFailed)
      ∧ (ksep ≠ [] → ∀ piece, (splitList ksep piece).length ≤ 2 →
          kvOfCode pk pv ksep piece = kvOfSpec pk pv ksep piece)
      ∧ (∀ r2 c2 row2 v2, t.rows.get? r2 = some row2 → row2.get? c2 = some v2 →
          (∀ s2, v2 ≠ Value.string s2) →
          Table.map pk pv t r2 c2 psep ksep = .error .invalidColumnType) := by
  refine ⟨?_, ?_, ?_, ?_⟩
  · intro pairs hp
    refine ⟨?_, fun k => hmLookup_hmOfList pairs k⟩
    simp only [Table.map, hr, hc, hp]
  · intro hp
    simp only [Table.map, hr, hc, hp]
  · intro hks piece hlen
    cases hfs : findSub ksep piece with
    | none =>
        have hsl : splitList ksep piece = [piece] := by
          rw [splitList_step ksep piece hks, hfs]
        simp only [kvOfCode, kvOfSpec, hsl, splitOnce, hfs]
    | some i =>
        have hsl := splitList_step ksep piece hks
        simp only [hfs] at hsl
        have hinner := splitList_step ksep (piece.drop (i + ksep.length)) hks
        cases hfs2 : findSub ksep (piece.drop (i + ksep.length)) with
        | none =>
            simp only [hfs2] at hinner
            rw [hinner] at hsl
            simp only [kvOfCode, kvOfSpec, hsl, splitOnce, hfs]
        | some j =>
            simp only [hfs2] at hinner
            rw [hinner] at hsl
            rw [hsl] at hlen
            cases hrest : splitList ksep
                ((piece.drop (i + ksep.length)).drop (j + ksep.length)) with
            | nil => exact absurd hrest (splitList_ne_nil ksep _)
            | cons x xs =>
                rw [hrest] at hlen
                simp at hlen
  · intro r2 c2 row2 v2 hr2 hc2 hv2
    cases v2 with
    | string s2 => exact absurd rfl (hv2 s2)
    | i8 v => simp only [Table.map, hr2, hc2]
    | u8 v => simp only [Table.map, hr2, hc2]
    | i16 v => simp only [Table.map, hr2, hc2]
    | u16 v => simp only [Table.map, hr2, hc2]
    | i32 v => simp only [Table.map, hr2, hc2]
    | u32 v => simp only [Table.map, hr2, hc2]
    | i64 v => simp only [Table.map, hr2, hc2]
    | u64 v => simp only [Table.map, hr2, hc2]
    | f32 v => simp only [Table.map, hr2, hc2]
    | f64 v => simp only [Table.map, hr2, hc2]


theorem C6_witness :
    Table.map some (parseUOpt 255)
        ⟨1, [[Value.string [97, 58, 49, 44, 98, 58, 50, 44, 97, 58, 51]]]⟩
        0 0 [44] [58] = .ok [([97], 3), ([98], 2)]
      ∧ hmLookup [97] (hmOfList [([97], 1), ([98], 2), ([97], 3)])
          = lastVal [97] [([97], 1), ([98], 2), ([97], 3)] := by
  have h := @C6_map_semantics (List Nat) Nat _ some (parseUOpt 255)
      ⟨1, [[Value.string [97, 58, 49, 44, 98, 58, 50, 44, 97, 58, 51]]]⟩
      0 0 [44] [58]
      [Value.string [97, 58, 49, 44, 98, 58, 50, 44, 97, 58, 51]]
      [97, 58, 49, 44, 98, 58, 50, 44, 97, 58, 51] rfl rfl
  have hp : seqOption
      ((splitList [44] [97, 58, 49, 44, 98, 58, 50, 44, 97, 58, 51]).map
        (kvOfCode some (parseUOpt 255) [58]))
      = some [([97], 1), ([98], 2), ([97], 3)] := by decide
  obtain ⟨h1, h2⟩ := h.1 _ hp
  refine ⟨?_, h2 [97]⟩
  rw [h1]
  decide


/-! ## `definitions::parse` (`src/stc/src/definitions.rs`)

The file contents here are a list of Unicode scalar values (the function
works at the `char` level).  `str::lines` splits at each newline, strips
one trailing carriage return from a piece that was terminated by a
newline, and drops a final empty piece. -/

/-- Rust `char::is_whitespace` (the Unicode `White_Space` property). -/
def isRustWhitespace (c : Nat) : Bool :=
  decide ((9 ≤ c ∧ c ≤ 13) ∨ c = 32 ∨ c = 133 ∨ c = 160 ∨ c = 5760
    ∨ (8192 ≤ c ∧ c ≤ 8202) ∨ c = 8232 ∨ c = 8233 ∨ c = 8239 ∨ c = 8287
    ∨ c = 12288)

/-- `str::trim`. -/
def trimList (s : List Nat) : List Nat :=
  ((s.dropWhile isRustWhitespace).reverse.dropWhile isRustWhitespace).reverse

def stripCR (l : List Nat) : List Nat :=
  if l.getLast? = some 13 then l.dropLast else l

/-- `str::lines`. -/
def linesOf (s : List Nat) : List (List Nat) :=
  match (splitList [10] s).getLast? with
  | some [] => (splitList [10] s).dropLast.map stripCR
  | some last => (splitList [10] s).dropLast.map stripCR ++ [last]
  | none => []

structure TableDefinition where
  name : List Nat
  columns : List (List Nat)
  types : List (List Nat)
  deriving DecidableEq, Repr

/-- Field extraction of one data line, after splitting on `;`: the
stateful `line.next()` calls read pieces 0 to 3 in order. -/
def defLineParseT (ps : List (List Nat)) : Except Error (Nat × TableDefinition) :=
  match parseU16 (ps.headD []) with
  | .error e => .error (.invalidTableId e)
  | .ok id =>
      match ps.get? 1 with
      | none => .error .noTableName
      | some name =>
          match ps.get? 2 with
          | none => .error .noTableColumnNames
          | some cs =>
              match ps.get? 3 with
              | none => .error .noTableColumnTypes
              | some ts =>
                  if (splitList [44] cs).length ≠ (splitList [44] ts).length then
                    .error .inconsistentNamesAndTypesLength
                  else .ok (id, ⟨name, splitList [44] cs, splitList [44] ts⟩)

/-- One non-skipped line of `definitions::parse`. -/
def defLineParse (line : List Nat) : Except Error (Nat × TableDefinition) :=
  defLineParseT (splitList [59] (trimList line))

/-- The `continue` condition of the parse loop: the trimmed line starts
with `//` or is empty. -/
def skipLine (line : List Nat) : Bool :=
  decide ((trimList line).take 2 = [47, 47] ∨ trimList line = [])

abbrev Registry := List (Nat × TableDefinition)

def defsParseF : List (List Nat) → Registry → Except Error Registry
  | [], acc => .ok acc
  | line :: rest, acc =>
      if skipLine line then defsParseF rest acc
      else
        match defLineParse line with
        | .error e => .error e
        | .ok (id, d) => defsParseF rest (hmInsert acc id d)

/-- `definitions::parse`. -/
def defsParse (contents : List Nat) : Except Error Registry :=
  defsParseF (linesOf contents) []

/-- The head piece of a split of a string starting with `/` again starts
with `/`, so the table id of a `//`-line can never parse. -/
theorem parseU16_headD_slash (t2 : List Nat) :
    parseU16 ((splitList [59] (47 :: t2)).headD []) = .error .invalidDigit := by
  cases hfs : findSub [59] (47 :: t2) with
  | none =>
      have hsl := splitList_step [59] (47 :: t2) (by decide)
      simp only [hfs] at hsl
      rw [hsl]
      simp [parseU16, parseUnsigned, parseDigits, digitVal]
  | some i =>
      have hsl := splitList_step [59] (47 :: t2) (by decide)
      simp only [hfs] at hsl
      rw [hsl]
      have hi : ∃ j, i = j + 1 := by
        rw [show findSub [59] (47 :: t2)
            = (findSub [59] t2).map (· + 1) from by
          simp [findSub, isPrefixB]] at hfs
        cases hfj : findSub [59] t2 with
        | none => rw [hfj] at hfs; cases hfs
        | some j =>
            rw [hfj] at hfs
            simp only [Option.map, Option.some.injEq] at hfs
            exact ⟨j, hfs.symm⟩
      obtain ⟨j, rfl⟩ := hi
      simp only [List.headD_cons, List.take_succ_cons]
      simp [parseU16, parseUnsigned, parseDigits, digitVal]

/-- A skipped line (blank or `//` after trimming) never parses as a data
line. -/
theorem defLineParse_skip (l : List Nat) (h : skipLine l = true) :
    ∀ id d, defLineParse l ≠ .ok (id, d) := by
  intro id d hok
  simp only [skipLine, decide_eq_true_eq] at h
  rcases h with htake | htrim
  · cases t : trimList l with
    | nil => rw [t] at htake; simp at htake
    | cons a rest =>
        rw [t, List.take_succ_cons] at htake
        injection htake with h1 h2
        subst h1
        rw [defLineParse, t] at hok
        rw [show defLineParseT (splitList [59] (47 :: rest))
            = .error (.invalidTableId .invalidDigit) from by
          simp only [defLineParseT, parseU16_headD_slash rest]] at hok
        cases hok
  · rw [defLineParse, htrim] at hok
    rw [show defLineParseT (splitList [59] [])
        = .error (.invalidTableId .empty) from rfl] at hok
    cases hok

/-- Processing lines none of which defines `id` leaves `id`'s registry
entry unchanged. -/
theorem defsParseF_frozen (ls : List (List Nat)) :
    ∀ (acc reg : Registry) (id : Nat), defsParseF ls acc = .ok reg →
      (∀ l2 ∈ ls, ∀ d2, defLineParse l2 ≠ .ok (id, d2)) →
      hmLookup id reg = hmLookup id acc := by
  induction ls with
  | nil =>
      intro acc reg id hok _
      injection hok with hok
      rw [hok]
  | cons l ls ih =>
      intro acc reg id hok hnd
      by_cases hs : skipLine l = true
      · rw [show defsParseF (l :: ls) acc = defsParseF ls acc from by
          simp [defsParseF, hs]] at hok
        exact ih acc reg id hok (fun l2 hl2 => hnd l2 (List.mem_cons_of_mem l hl2))
      · cases hlp : defLineParse l with
        | error e =>
            rw [show defsParseF (l :: ls) acc = .error e from by
              simp [defsParseF, hs, hlp]] at hok
            cases hok
        | ok p =>
            obtain ⟨id2, d2⟩ := p
            rw [show defsParseF (l :: ls) acc
                = defsParseF ls (hmInsert acc id2 d2) from by
              simp [defsParseF, hs, hlp]] at hok
            have hne : id2 ≠ id := by
              intro he
              exact hnd l (List.mem_cons_self l ls) d2 (he ▸ hlp)
            rw [ih (hmInsert acc id2 d2) reg id hok
              (fun l2 hl2 => hnd l2 (List.mem_cons_of_mem l hl2))]
            rw [hmLookup_hmInsert, if_neg hne]

/-- A successful parse of `xs ++ ys` passes through a successful
intermediate registry after `xs`. -/
theorem defsParseF_append_ok (xs : List (List Nat)) :
    ∀ (ys : List (List Nat)) (acc reg : Registry),
      defsParseF (xs ++ ys) acc = .ok reg →
      ∃ acc1, defsParseF xs acc = .ok acc1 ∧ defsParseF ys acc1 = .ok reg := by
  induction xs with
  | nil =>
      intro ys acc reg hok
      exact ⟨acc, rfl, hok⟩
  | cons l xs ih =>
      intro ys acc reg hok
      by_cases hs : skipLine l = true
      · rw [List.cons_append,
          show defsParseF ((l :: (xs ++ ys))) acc = defsParseF (xs ++ ys) acc from by
            simp [defsParseF, hs]] at hok
        obtain ⟨acc1, h1, h2⟩ := ih ys acc reg hok
        refine ⟨acc1, ?_, h2⟩
        rw [show defsParseF (l :: xs) acc = defsParseF xs acc from by
          simp [defsParseF, hs]]
        exact h1
      · cases hlp : defLineParse l with
        | error e =>
            rw [List.cons_append,
              show defsParseF (l :: (xs ++ ys)) acc = .error e from by
                simp [defsParseF, hs, hlp]] at hok
            cases hok
        | ok p =>
            obtain ⟨id2, d2⟩ := p
            rw [List.cons_append,
              show defsParseF (l :: (xs ++ ys)) acc
                  = defsParseF (xs ++ ys) (hmInsert acc id2 d2) from by
                simp [defsParseF, hs, hlp]] at hok
            obtain ⟨acc1, h1, h2⟩ := ih ys (hmInsert acc id2 d2) reg hok
            refine ⟨acc1, ?_, h2⟩
            rw [show defsParseF (l :: xs) acc
                = defsParseF xs (hmInsert acc id2 d2) from by
              simp [defsParseF, hs, hlp]]
            exact h1


/-- C7: `definitions::parse` skips lines that are blank or start (after
trimming) with `//`; any other line is read as `id;name;columns;types` and
fails with `InvalidTableId` (carrying the integer parse error) when the id
does not parse as `u16`, with `NoTableName` / `NoTableColumnNames` /
`NoTableColumnTypes` when the corresponding `;`-field is absent, and with
`InconsistentNamesAndTypesLength` when the two comma-separated lists differ
in length; a good line replaces the id's registry entry, and when several
data lines define the same id the registry keeps the last definition. -/
theorem C7_definitions_parse :
    (∀ line rest acc, skipLine line = true →
        defsParseF (line :: rest) acc = defsParseF rest acc)
  ∧ (∀ line rest acc e, skipLine line = false →
      parseU16 ((splitList [59] (trimList line)).headD []) = .error e →
      defsParseF (line :: rest) acc = .error (.invalidTableId e))
  ∧ (∀ line rest acc id, skipLine line = false →
      parseU16 ((splitList [59] (trimList line)).headD []) = .ok id →
      (splitList [59] (trimList line)).get? 1 = none →
      defsParseF (line :: rest) acc = .error .noTableName)
  ∧ (∀ line rest acc id name, skipLine line = false →
      parseU16 ((splitList [59] (trimList line)).headD []) = .ok id →
      (splitList [59] (trimList line)).get? 1 = some name →
      (splitList [59] (trimList line)).get? 2 = none →
      defsParseF (line :: rest) acc = .error .noTableColumnNames)
  ∧ (∀ line rest acc id name cs, skipLine line = false →
      parseU16 ((splitList [59] (trimList line)).headD []) = .ok id →
      (splitList [59] (trimList line)).get? 1 = some name →
      (splitList [59] (trimList line)).get? 2 = some cs →
      (splitList [59] (trimList line)).get? 3 = none →
      defsParseF (line :: rest) acc = .error .noTableColumnTypes)
  ∧ (∀ line rest acc id name cs ts, skipLine line = false →
      parseU16 ((splitList [59] (trimList line)).headD []) = .ok id →
      (splitList [59] (trimList line)).get? 1 = some name →
      (splitList [59] (trimList line)).get? 2 = some cs →
      (splitList [59] (trimList line)).get? 3 = some ts →
      (splitList [44] cs).length ≠ (splitList [44] ts).length →
      defsParseF (line :: rest) acc = .error .inconsistentNamesAndTypesLength)
  ∧ (∀ line rest acc id d, skipLine line = false →
      defLineParse line = .ok (id, d) →
      defsParseF (line :: rest) acc = defsParseF rest (hmInsert acc id d))
  ∧ (∀ contents reg pre line post id d,
      defsParse contents = .ok reg →
      linesOf contents = pre ++ line :: post →
      defLineParse line = .ok (id, d) →
      (∀ l2 ∈ post, ∀ d2, defLineParse l2 ≠ .ok (id, d2)) →
      hmLookup id reg = some d) := by
  refine ⟨?_, ?_, ?_, ?_, ?_, ?_, ?_, ?_⟩
  · intro line rest acc hs
    simp [defsParseF, hs]
  · intro line rest acc e hs hp
    have hdl : defLineParse line = .error (.invalidTableId e) := by
      rw [defLineParse]
      simp only [defLineParseT, hp]
    simp [defsParseF, hs, hdl]
  · intro line rest acc id hs hp hg1
    have hdl : defLineParse line = .error .noTableName := by
      rw [defLineParse]
      simp only [defLineParseT, hp, hg1]
    simp [defsParseF, hs, hdl]
  · intro line rest acc id name hs hp hg1 hg2
    have hdl : defLineParse line = .error .noTableColumnNames := by
      rw [defLineParse]
      simp only [defLineParseT, hp, hg1, hg2]
    simp [defsParseF, hs, hdl]
  · intro line rest acc id name cs hs hp hg1 hg2 hg3
    have hdl : defLineParse line = .error .noTableColumnTypes := by
      rw [defLineParse]
      simp only [defLineParseT, hp, hg1, hg2, hg3]
    simp [defsParseF, hs, hdl]
  · intro line rest acc id name cs ts hs hp hg1 hg2 hg3 hlen
    have hdl : defLineParse line = .error .inconsistentNamesAndTypesLength := by
      rw [defLineParse]
      simp only [defLineParseT, hp, hg1, hg2, hg3]
      rw [if_pos hlen]
    simp [defsParseF, hs, hdl]
  · intro line rest acc id d hs hdl
    simp [defsParseF, hs, hdl]
  · intro contents reg pre line post id d hok hsplit hline hpost
    rw [defsParse, hsplit] at hok
    obtain ⟨acc1, h1, h2⟩ := defsParseF_append_ok pre (line :: post) [] reg hok
    have hns : skipLine line = false := by
      cases hsl : skipLine line with
      | false => rfl
      | true => exact absurd hline (defLineParse_skip line hsl id d)
    rw [show defsParseF (line :: post) acc1
        = defsParseF post (hmInsert acc1 id d) from by
      simp [defsParseF, hns, hline]] at h2
    rw [defsParseF_frozen post (hmInsert acc1 id d) reg id h2 hpost]
    rw [hmLookup_hmInsert]
    simp

theorem C7_witness :
    defsParse [49, 59, 97, 59, 120, 59, 105, 51, 50, 10,
        49, 59, 98, 59, 120, 59, 117, 56]
        = .ok [(1, ⟨[98], [[120]], [[117, 56]]⟩)]
      ∧ hmLookup 1 [(1, (⟨[98], [[120]], [[117, 56]]⟩ : TableDefinition))]
          = some ⟨[98], [[120]], [[117, 56]]⟩ := by
  refine ⟨by decide, ?_⟩
  exact C7_definitions_parse.2.2.2.2.2.2.2
    [49, 59, 97, 59, 120, 59, 105, 51, 50, 10, 49, 59, 98, 59, 120, 59, 117, 56]
    [(1, ⟨[98], [[120]], [[117, 56]]⟩)]
    [[49, 59, 97, 59, 120, 59, 105, 51, 50]]
    [49, 59, 98, 59, 120, 59, 117, 56] [] 1 ⟨[98], [[120]], [[117, 56]]⟩
    (by decide) (by decide) (by decide) (by simp)


/-! ## `Table::from_csv` (`src/table.rs`)

The `csv` crate machinery (record framing, quoting) is external; the
embedding starts from the decoded records: the type-header row and the
data records, each a list of cell strings (UTF-8 byte lists).  Rust float
parsing (`f32`/`f64 : FromStr`) is passed in as bit-pattern-producing
functions `pf32`/`pf64`. -/

/-- The per-cell `match col_type.deref()` of `Table::from_csv`.  The
`"i8"` arm of the source parses the cell as a `u8` and wraps it in
`Value::U8`. -/
def cellFromCsv (pf32 pf64 : List Nat → Option Nat)
    (colType cell : List Nat) : Except Error Value :=
  if colType = [105, 56] then
    match parseUOpt 255 cell with
    | some n => .ok (Value.u8 n)
    | none => .error .valueConversionFailed
  else if colType = [117, 56] then
    match parseUOpt 255 cell with
    | some n => .ok (Value.u8 n)
    | none => .error .valueConversionFailed
  else if colType = [105, 49, 54] then
    match parseIOpt (-32768) 32767 cell with
    | some n => .ok (Value.i16 n)
    | none => .error .valueConversionFailed
  else if colType = [117, 49, 54] then
    match parseUOpt 65535 cell with
    | some n => .ok (Value.u16 n)
    | none => .error .valueConversionFailed
  else if colType = [105, 51, 50] then
    match parseIOpt (-2147483648) 2147483647 cell with
    | some n => .ok (Value.i32 n)
    | none => .error .valueConversionFailed
  else if colType = [117, 51, 50] then
    match parseUOpt 4294967295 cell with
    | some n => .ok (Value.u32 n)
    | none => .error .valueConversionFailed
  else if colType = [105, 54, 52] then
    match parseIOpt (-9223372036854775808) 9223372036854775807 cell with
    | some n => .ok (Value.i64 n)
    | none => .error .valueConversionFailed
  else if colType = [117, 54, 52] then
    match parseUOpt 18446744073709551615 cell with
    | some n => .ok (Value.u64 n)
    | none => .error .valueConversionFailed
  else if colType = [102, 51, 50] then
    match pf32 cell with
    | some b => .ok (Value.f32 b)
    | none => .error .valueConversionFailed
  else if colType = [102, 54, 52] then
    match pf64 cell with
    | some b => .ok (Value.f64 b)
    | none => .error .valueConversionFailed
  else if colType = [115, 116, 114, 105, 110, 103] then
    .ok (Value.string cell)
  else .error .invalidColumnType

/-- One record: `record.iter().enumerate().map(..).collect::<Result<_,_>>()`,
with `types.get(i).ok_or(InconsistentNamesAndTypesLength)`. -/
def rowFromCsv (pf32 pf64 : List Nat → Option Nat)
    (types : List (List Nat)) : List (List Nat) → Nat → Except Error (List Value)
  | [], _ => .ok []
  | cell :: cells, i =>
      match types.get? i with
      | none => .error .inconsistentNamesAndTypesLength
      | some ct =>
          match cellFromCsv pf32 pf64 ct cell with
          | .error e => .error e
          | .ok v =>
              match rowFromCsv pf32 pf64 types cells (i + 1) with
              | .error e => .error e
              | .ok vs => .ok (v :: vs)

/-- The record loop of `Table::from_csv`: parse each record, `add_row` it. -/
def fromCsvF (pf32 pf64 : List Nat → Option Nat) (types : List (List Nat)) :
    List (List (List Nat)) → Table → Except Error Table
  | [], t => .ok t
  | record :: records, t =>
      match rowFromCsv pf32 pf64 types record 0 with
      | .error e => .error e
      | .ok row =>
          match t.add_row row with
          | .error e => .error e
          | .ok t2 => fromCsvF pf32 pf64 types records t2

/-- `Table::from_csv`, from the decoded type header and records. -/
def Table.from_csv (pf32 pf64 : List Nat → Option Nat) (id : Nat)
    (types : List (List Nat)) (records : List (List (List Nat))) :
    Except Error Table :=
  fromCsvF pf32 pf64 types records ⟨id, []⟩

/-- A float parser that always fails (unused by the integer columns under
test). -/
def pfNone : List Nat → Option Nat := fun _ => none

/-- C8: in `Table::from_csv` the `"i8"` column arm parses the cell as a
`u8` and wraps it in the `U8` variant, so (csv types `"i32","i8"`, record
`"1","5"`) produces a `U8(5)` cell — tag 2, not the `I8` variant of the
claim — and the in-range `i8` cell `"-1"` (accepted by a real `i8` parse)
fails with `ValueConversionFailed`. -/
theorem C8_from_csv_i8_bug :
    Table.from_csv pfNone pfNone 1 [[105, 51, 50], [105, 56]]
        [[[49], [53]]] = .ok ⟨1, [[Value.i32 1, Value.u8 5]]⟩
      ∧ (Value.u8 5).type_as_u8 = 2
      ∧ cellFromCsv pfNone pfNone [105, 56] [53] = .ok (Value.u8 5)
      ∧ Table.from_csv pfNone pfNone 1 [[105, 51, 50], [105, 56]]
          [[[49], [45, 49]]] = .error .valueConversionFailed
      ∧ parseIOpt (-128) 127 [45, 49] = some (-1) := by
  exact ⟨by decide, by decide, by decide, by decide, by decide⟩


/-! ## `NamedTable` (`src/stc/src/named.rs`) -/

/-- `row.get(0).map(Value::as_i32).flatten()`. -/
def rowIdOf (r : Row) : Option Int := (r.get? 0).bind Value.as_i32

/-- The `id_to_index` loop of `NamedTable::from_definition`: one `IndexMap`
insert per row; a row without an `i32` first cell is `ColumnNotFound`. -/
def buildIdToIndex : List Row → Nat → List (Int × Nat) →
    Except Error (List (Int × Nat))
  | [], _, acc => .ok acc
  | r :: rs, i, acc =>
      match rowIdOf r with
      | none => .error .columnNotFound
      | some id => buildIdToIndex rs (i + 1) (hmInsert acc id i)

/-- `column_to_index`: enumerate the definition column names and collect
`(name, index)` into a `HashMap`. -/
def buildColumnToIndex (cols : List (List Nat)) : List (List Nat × Nat) :=
  (cols.enum.map fun p => (p.2, p.1)).foldl (fun m q => hmInsert m q.1 q.2) []

structure NamedTable where
  name : List Nat
  id_to_index : List (Int × Nat)
  column_to_index : List (List Nat × Nat)
  table : Table
  deriving DecidableEq, Repr

def NamedTable.from_definition (t : Table) (d : TableDefinition) :
    Except Error NamedTable :=
  match buildIdToIndex t.rows 0 [] with
  | .error e => .error e
  | .ok i2i => .ok ⟨d.name, i2i, buildColumnToIndex d.columns, t⟩

/-- `NamedTable::row_ids`: the `IndexMap` keys in insertion order. -/
def NamedTable.row_ids (nt : NamedTable) : List Int :=
  nt.id_to_index.map Prod.fst

def NamedTable.value {T : Type} (conv : Value → Option T) (nt : NamedTable)
    (row_id : Int) (cname : List Nat) : Except Error T :=
  match hmLookup row_id nt.id_to_index with
  | none => .error .rowNotFound
  | some ri =>
      match hmLookup cname nt.column_to_index with
      | none => .error .columnNotFound
      | some ci => Table.value conv nt.table ri ci

def NamedTable.vector {T : Type} (pe : List Nat → Option T) (nt : NamedTable)
    (row_id : Int) (cname : List Nat) (sep : List Nat) :
    Except Error (List T) :=
  match hmLookup row_id nt.id_to_index with
  | none => .error .rowNotFound
  | some ri =>
      match hmLookup cname nt.column_to_index with
      | none => .error .columnNotFound
      | some ci => Table.vector pe nt.table ri ci sep

def NamedTable.array {T : Type} (pe : List Nat → Option T) (nt : NamedTable)
    (row_id : Int) (cname : List Nat) (sep : List Nat) (len : Nat) :
    Except Error (List T) :=
  match NamedTable.vector pe nt row_id cname sep with
  | .error e => .error e
  | .ok ret => if ret.length ≠ len then .error .mismatchedLength else .ok ret

def NamedTable.map {K V : Type} [DecidableEq K] (pk : List Nat → Option K)
    (pv : List Nat → Option V) (nt : NamedTable) (row_id : Int)
    (cname : List Nat) (psep ksep : List Nat) : Except Error (List (K × V)) :=
  match hmLookup row_id nt.id_to_index with
  | none => .error .rowNotFound
  | some ri =>
      match hmLookup cname nt.column_to_index with
      | none => .error .columnNotFound
      | some ci => Table.map pk pv nt.table ri ci psep ksep

/-- Index of the LAST row with id `id`, counting from base index `i`. -/
def lastIdxF (id : Int) : List Row → Nat → Option Nat
  | [], _ => none
  | r :: rs, i =>
      match lastIdxF id rs (i + 1) with
      | some j => some j
      | none => if rowIdOf r = some id then some i else none

theorem buildIdToIndex_keys :
    ∀ (rows : List Row) (i : Nat) (acc m : List (Int × Nat)),
      buildIdToIndex rows i acc = .ok m →
      hmKeys m = hmKeys acc ++ dedupF (hmKeys acc) (rows.filterMap rowIdOf) := by
  intro rows
  induction rows with
  | nil =>
      intro i acc m hok
      injection hok with hok
      rw [← hok]
      simp [dedupF]
  | cons r rs ih =>
      intro i acc m hok
      cases hid : rowIdOf r with
      | none =>
          rw [show buildIdToIndex (r :: rs) i acc = .error .columnNotFound from by
            simp [buildIdToIndex, hid]] at hok
          cases hok
      | some id =>
          rw [show buildIdToIndex (r :: rs) i acc
              = buildIdToIndex rs (i + 1) (hmInsert acc id i) from by
            simp [buildIdToIndex, hid]] at hok
          rw [ih (i + 1) _ m hok]
          rw [List.filterMap_cons, hid]
          rw [hmKeys_hmInsert]
          by_cases hmem : id ∈ hmKeys acc
          · rw [if_pos hmem]
            simp [dedupF, hmem]
          · rw [if_neg hmem]
            rw [dedupF_congr (rs.filterMap rowIdOf) (hmKeys acc ++ [id])
              (id :: hmKeys acc) (by intro x; simp [or_comm])]
            simp [dedupF, hmem]

theorem buildIdToIndex_lookup :
    ∀ (rows : List Row) (i : Nat) (acc m : List (Int × Nat)),
      buildIdToIndex rows i acc = .ok m → ∀ id,
      hmLookup id m = match lastIdxF id rows i with
        | some j => some j
        | none => hmLookup id acc := by
  intro rows
  induction rows with
  | nil =>
      intro i acc m hok id
      injection hok with hok
      rw [← hok]
      simp [lastIdxF]
  | cons r rs ih =>
      intro i acc m hok id
      cases hid : rowIdOf r with
      | none =>
          rw [show buildIdToIndex (r :: rs) i acc = .error .columnNotFound from by
            simp [buildIdToIndex, hid]] at hok
          cases hok
      | some id2 =>
          rw [show buildIdToIndex (r :: rs) i acc
              = buildIdToIndex rs (i + 1) (hmInsert acc id2 i) from by
            simp [buildIdToIndex, hid]] at hok
          rw [ih (i + 1) _ m hok id]
          simp only [lastIdxF]
          cases hl : lastIdxF id rs (i + 1) with
          | some j => simp
          | none =>
              rw [hmLookup_hmInsert, hid]
              by_cases he : id2 = id
              · subst he
                simp
              · rw [if_neg he]
                simp [he]


/-- C10: after `NamedTable::from_definition` succeeds, `row_ids()` lists
each distinct row id exactly once, at the position of its first occurrence
in row order; every name-keyed accessor (`value`, `vector`, `array`,
`map`) resolves a row id to the index of the LAST row bearing it; an id of
no row gives `RowNotFound`; and for pairwise-distinct ids `row_ids()` is
exactly the ids in original row order. -/
theorem C10_named_table (t : Table) (d : TableDefinition) (nt : NamedTable)
    (h : NamedTable.from_definition t d = .ok nt) :
    NamedTable.row_ids nt = dedupKeepFirst (t.rows.filterMap rowIdOf)
  ∧ (∀ id, hmLookup id nt.id_to_index = lastIdxF id t.rows 0)
  ∧ (∀ {T : Type} (conv : Value → Option T) (id : Int) (cname : List Nat)
      (ri ci : Nat), lastIdxF id t.rows 0 = some ri →
      hmLookup cname nt.column_to_index = some ci →
      NamedTable.value conv nt id cname = Table.value conv t ri ci)
  ∧ (∀ {T : Type} (pe : List Nat → Option T) (id : Int) (cname sep : List Nat)
      (ri ci : Nat), lastIdxF id t.rows 0 = some ri →
      hmLookup cname nt.column_to_index = some ci →
      NamedTable.vector pe nt id cname sep = Table.vector pe t ri ci sep)
  ∧ (∀ {T : Type} (pe : List Nat → Option T) (id : Int) (cname sep : List Nat)
      (len ri ci : Nat), lastIdxF id t.rows 0 = some ri →
      hmLookup cname nt.column_to_index = some ci →
      NamedTable.array pe nt id cname sep len
        = match Table.vector pe t ri ci sep with
          | .error e => .error e
          | .ok ret =>
              if ret.length ≠ len then .error .mismatchedLength else .ok ret)
  ∧ (∀ {K V : Type} [DecidableEq K] (pk : List Nat → Option K)
      (pv : List Nat → Option V) (id : Int) (cname psep ksep : List Nat)
      (ri ci : Nat), lastIdxF id t.rows 0 = some ri →
      hmLookup cname nt.column_to_index = some ci →
      NamedTable.map pk pv nt id cname psep ksep
        = Table.map pk pv t ri ci psep ksep)
  ∧ (∀ {T : Type} (conv : Value → Option T) (id : Int) (cname : List Nat),
      lastIdxF id t.rows 0 = none →
      NamedTable.value conv nt id cname = .error .rowNotFound)
  ∧ ((t.rows.filterMap rowIdOf).Nodup →
      NamedTable.row_ids nt = t.rows.filterMap rowIdOf) := by
  cases hb : buildIdToIndex t.rows 0 [] with
  | error e =>
      rw [NamedTable.from_definition, hb] at h
      cases h
  | ok i2i =>
      rw [NamedTable.from_definition, hb] at h
      injection h with h
      subst h
      have hkeys := buildIdToIndex_keys t.rows 0 [] i2i hb
      have hlk := buildIdToIndex_lookup t.rows 0 [] i2i hb
      have hlk2 : ∀ id, hmLookup id i2i = lastIdxF id t.rows 0 := by
        intro id
        rw [hlk id]
        cases lastIdxF id t.rows 0 <;> simp [hmLookup]
      refine ⟨?_, ?_, ?_, ?_, ?_, ?_, ?_, ?_⟩
      · show hmKeys i2i = dedupKeepFirst (t.rows.filterMap rowIdOf)
        rw [hkeys]
        simp [hmKeys, dedupKeepFirst]
      · intro id
        exact hlk2 id
      · intro T conv id cname ri ci hri hci
        simp only [NamedTable.value, hlk2, hri, hci]
      · intro T pe id cname sep ri ci hri hci
        simp only [NamedTable.vector, hlk2, hri, hci]
      · intro T pe id cname sep len ri ci hri hci
        simp only [NamedTable.array, NamedTable.vector, hlk2, hri, hci]
      · intro K V hK pk pv id cname psep ksep ri ci hri hci
        simp only [NamedTable.map, hlk2, hri, hci]
      · intro T conv id cname hnone
        simp only [NamedTable.value, hlk2, hnone]
      · intro hnd
        show hmKeys i2i = t.rows.filterMap rowIdOf
        rw [hkeys]
        simp only [hmKeys, List.map_nil, List.nil_append]
        exact dedupF_of_nodup _ [] hnd (by simp)

theorem C10_witness :
    NamedTable.from_definition
        ⟨1, [[Value.i32 1, Value.u8 10], [Value.i32 2, Value.u8 20],
          [Value.i32 1, Value.u8 30]]⟩
        ⟨[110], [[97], [98]], [[105], [105]]⟩
      = .ok ⟨[110], [(1, 2), (2, 1)], [([97], 0), ([98], 1)],
          ⟨1, [[Value.i32 1, Value.u8 10], [Value.i32 2, Value.u8 20],
            [Value.i32 1, Value.u8 30]]⟩⟩
  ∧ NamedTable.row_ids ⟨[110], [(1, 2), (2, 1)], [([97], 0), ([98], 1)],
      ⟨1, [[Value.i32 1, Value.u8 10], [Value.i32 2, Value.u8 20],
        [Value.i32 1, Value.u8 30]]⟩⟩ = [1, 2]
  ∧ NamedTable.value (fun v => match v with | Value.u8 n => some n | _ => none)
      ⟨[110], [(1, 2), (2, 1)], [([97], 0), ([98], 1)],
        ⟨1, [[Value.i32 1, Value.u8 10], [Value.i32 2, Value.u8 20],
          [Value.i32 1, Value.u8 30]]⟩⟩ 1 [98] = .ok 30 := by
  have h := C10_named_table
      ⟨1, [[Value.i32 1, Value.u8 10], [Value.i32 2, Value.u8 20],
        [Value.i32 1, Value.u8 30]]⟩
      ⟨[110], [[97], [98]], [[105], [105]]⟩
      ⟨[110], [(1, 2), (2, 1)], [([97], 0), ([98], 1)],
        ⟨1, [[Value.i32 1, Value.u8 10], [Value.i32 2, Value.u8 20],
          [Value.i32 1, Value.u8 30]]⟩⟩ (by decide)
  refine ⟨by decide, ?_, ?_⟩
  · rw [h.1]
    decide
  · have h3 := h.2.2.1 (fun v => match v with | Value.u8 n => some n | _ => none)
      1 [98] 2 1 (by decide) (by decide)
    rw [h3]
    decide

end Stc
